import Mathlib

/-!
# Verification of the Escape-Room decision core

A shallow embedding of the algorithmic core of the escape-room game
(path planning, Bayesian belief tracking, CSP puzzle solving, adversarial
minimax search) together with proofs of the specified properties.

Conventions:
* Python floats are modelled as exact rationals.
* Python dictionaries keyed by room id are modelled as functions out of
  the room-id type together with an explicit key-domain; the belief
  dictionary built by the constructor has key set exactly
  range num_rooms, and no operation ever adds or removes a key, so
  membership in the dictionary is embedded as the bound room_id < numRooms.
* Room ids are natural numbers (the generator only produces ids
  0 .. room_count - 1).
* Unbounded loops over work lists are embedded with an explicit fuel
  argument; the top-level entry points supply enough fuel, and the
  theorems prove that this fuel is sufficient.
-/

namespace EscapeRoom

/-! ## Room graph paths

The room graph is consumed through get_unlocked_neighbors, embedded as a
function nbrs : Nat → List Nat.  A valid path is a nonempty list of rooms
starting at s, ending at t, consecutive rooms joined by an unlocked edge. -/

/-- v is an unlocked neighbor of u. -/
def Edge (nbrs : Nat → List Nat) (u v : Nat) : Prop := v ∈ nbrs u

/-- p is a path from s to t along unlocked edges (inclusive of both ends). -/
def ValidPath (nbrs : Nat → List Nat) (s t : Nat) (p : List Nat) : Prop :=
  p.Chain' (Edge nbrs) ∧ p.head? = some s ∧ p.getLast? = some t

/-! ## Bayesian belief system (bayesian_reasoning.py) -/

/-- The configuration constants consumed by BayesianBeliefSystem. -/
structure BeliefConfig where
  initialTrapProbability : ℚ
  observationReliability : ℚ

/-- State of BayesianBeliefSystem: trap_beliefs dictionary (key set is
always range numRooms) and the observations dictionary. -/
structure BeliefState where
  cfg : BeliefConfig
  numRooms : Nat
  trapBeliefs : Nat → ℚ
  observations : Nat → Option String

/-- The constructor BayesianBeliefSystem.__init__: every room gets the
configured prior, no observations. -/
def initBeliefState (cfg : BeliefConfig) (numRooms : Nat) : BeliefState :=
  { cfg := cfg
    numRooms := numRooms
    trapBeliefs := fun _ => cfg.initialTrapProbability
    observations := fun _ => none }

/-- BayesianBeliefSystem._propagate_beliefs: after observing
observedRoom, adjust every unobserved room at id-distance ≤ 2.
The source iterates over the keys of trap_beliefs (= range numRooms);
each key is updated independently, so the dictionary loop is embedded
as a pointwise function update guarded by the key bound. -/
def propagateBeliefs (s : BeliefState) (observedRoom : Nat) (observation : String) :
    BeliefState :=
  if observation = "trap" then
    { s with trapBeliefs := fun roomId =>
        if roomId < s.numRooms ∧ roomId ≠ observedRoom ∧ s.observations roomId = none then
          let distance : Nat := ((roomId : ℤ) - (observedRoom : ℤ)).natAbs
          if distance ≤ 2 then
            let increase : ℚ := 0.1 * (1 / (distance : ℚ))
            min 0.95 (s.trapBeliefs roomId + increase)
          else s.trapBeliefs roomId
        else s.trapBeliefs roomId }
  else if observation = "safe" then
    { s with trapBeliefs := fun roomId =>
        if roomId < s.numRooms ∧ roomId ≠ observedRoom ∧ s.observations roomId = none then
          let distance : Nat := ((roomId : ℤ) - (observedRoom : ℤ)).natAbs
          if distance ≤ 2 then
            let decrease : ℚ := 0.05 * (1 / (distance : ℚ))
            max 0.05 (s.trapBeliefs roomId - decrease)
          else s.trapBeliefs roomId
        else s.trapBeliefs roomId }
  else s

/-- BayesianBeliefSystem.update_belief: Bayes update of the observed room
followed by propagation to nearby rooms. -/
def updateBelief (s : BeliefState) (roomId : Nat) (observation : String) : BeliefState :=
  if roomId < s.numRooms then
    let s1 : BeliefState :=
      { s with observations := fun r => if r = roomId then some observation else s.observations r }
    let prior : ℚ := s1.trapBeliefs roomId
    let likelihoodTrap : ℚ :=
      if observation = "trap" then 1.0 else 1.0 - s.cfg.observationReliability
    let likelihoodNoTrap : ℚ :=
      if observation = "trap" then 0.0 else s.cfg.observationReliability
    let evidence : ℚ := likelihoodTrap * prior + likelihoodNoTrap * (1 - prior)
    let posterior : ℚ := if evidence > 0 then likelihoodTrap * prior / evidence else 0.0
    let s2 : BeliefState :=
      { s1 with trapBeliefs := fun r => if r = roomId then posterior else s1.trapBeliefs r }
    propagateBeliefs s2 roomId observation
  else s

/-- BayesianBeliefSystem.get_trap_probability: dictionary get with
default 0.0 (the key set is range numRooms). -/
def getTrapProbability (s : BeliefState) (roomId : Nat) : ℚ :=
  if roomId < s.numRooms then s.trapBeliefs roomId else 0.0

/-- A finite sequence of update_belief calls, applied in order. -/
def applyUpdates (s : BeliefState) (updates : List (Nat × String)) : BeliefState :=
  updates.foldl (fun acc u => updateBelief acc u.1 u.2) s

/-! ## Breadth-first search (Agent.find_path_bfs)

The inner for-loop over the unlocked neighbors of the dequeued room:
it returns early with the completed path as soon as a neighbor equals
the goal, and otherwise enqueues each unvisited neighbor (marking it
visited).  The queue is a FIFO: popleft takes the head, append adds at
the tail. -/
def bfsExpand (goal : Nat) (path : List Nat) :
    List Nat → List (Nat × List Nat) → List Nat →
    (List Nat) ⊕ (List (Nat × List Nat) × List Nat)
  | [], queue, visited => Sum.inr (queue, visited)
  | n :: ns, queue, visited =>
    if n = goal then Sum.inl (path ++ [n])
    else if n ∈ visited then bfsExpand goal path ns queue visited
    else bfsExpand goal path ns (queue ++ [(n, path ++ [n])]) (n :: visited)

/-- The while-loop of find_path_bfs, with explicit fuel (the source loop
terminates because the visited set grows; the top-level call supplies
fuel numRooms + 1, proven sufficient below). -/
def bfsLoop (nbrs : Nat → List Nat) (goal : Nat) :
    Nat → List (Nat × List Nat) → List Nat → Option (List Nat)
  | 0, _, _ => none
  | _ + 1, [], _ => none
  | fuel + 1, (current, path) :: rest, visited =>
    match bfsExpand goal path (nbrs current) rest visited with
    | Sum.inl found => some found
    | Sum.inr (queue', visited') => bfsLoop nbrs goal fuel queue' visited'

/-- Agent.find_path_bfs.  numRooms bounds the room ids supplied by the
environment (env.room_count); it only feeds the fuel of the embedded
loop. -/
def findPathBFS (nbrs : Nat → List Nat) (numRooms : Nat) (start goal : Nat) :
    Option (List Nat) :=
  if start = goal then some [start]
  else bfsLoop nbrs goal (numRooms + 1) [(start, [start])] [start]

/-! ## A*-style search (Agent.find_path_astar)

Entries on the heap are tuples (f_score, g_score, room_id, path); Python
heapq pops the least entry in lexicographic tuple order. -/

/-- A heap entry (f_score, g_score, room_id, path). -/
structure AstarEntry where
  fScore : ℚ
  gScore : Nat
  room : Nat
  path : List Nat
deriving DecidableEq

/-- Python list comparison: lexicographic, a strict prefix is smaller. -/
def listLeb : List Nat → List Nat → Bool
  | [], _ => true
  | _ :: _, [] => false
  | a :: as', b :: bs => if a < b then true else if b < a then false else listLeb as' bs

/-- Python tuple comparison on heap entries (lexicographic). -/
def entryLeb (e1 e2 : AstarEntry) : Bool :=
  if e1.fScore < e2.fScore then true
  else if e2.fScore < e1.fScore then false
  else if e1.gScore < e2.gScore then true
  else if e2.gScore < e1.gScore then false
  else if e1.room < e2.room then true
  else if e2.room < e1.room then false
  else listLeb e1.path e2.path

/-- heapq.heappop: remove and return the least entry (first minimal one). -/
def popMin : List AstarEntry → Option (AstarEntry × List AstarEntry)
  | [] => none
  | e :: es =>
    match popMin es with
    | none => some (e, [])
    | some (m, rest) => if entryLeb e m then some (e, es) else some (m, e :: rest)

/-- The heuristic of find_path_astar: id-distance to the goal plus ten
times the believed trap probability (prob is the agent's
belief_system.get_trap_probability). -/
def astarHeuristic (prob : Nat → ℚ) (goal roomId : Nat) : ℚ :=
  (((roomId : ℤ) - (goal : ℤ)).natAbs : ℚ) + prob roomId * 10

/-- The heap entry pushed for a neighbor n: f = g + 1 + h(n), with the
path extended by n. -/
def mkEntry (prob : Nat → ℚ) (goal gScore : Nat) (path : List Nat) (n : Nat) : AstarEntry :=
  { fScore := ((gScore + 1 : Nat) : ℚ) + astarHeuristic prob goal n
    gScore := gScore + 1
    room := n
    path := path ++ [n] }

/-- The push loop of find_path_astar: push an entry for every unlocked
neighbor not yet in the visited (closed) set. -/
def astarPush (prob : Nat → ℚ) (goal gScore : Nat) (path : List Nat) (visited : List Nat) :
    List Nat → List AstarEntry → List AstarEntry
  | [], open' => open'
  | n :: ns, open' =>
    if n ∈ visited then astarPush prob goal gScore path visited ns open'
    else astarPush prob goal gScore path visited ns (open' ++ [mkEntry prob goal gScore path n])

/-- The while-loop of find_path_astar with explicit fuel. -/
def astarLoop (nbrs : Nat → List Nat) (prob : Nat → ℚ) (goal : Nat) :
    Nat → List AstarEntry → List Nat → Option (List Nat)
  | 0, _, _ => none
  | fuel + 1, open', visited =>
    match popMin open' with
    | none => none
    | some (e, openRest) =>
      if e.room ∈ visited then astarLoop nbrs prob goal fuel openRest visited
      else
        let visited' := e.room :: visited
        if e.room = goal then some e.path
        else
          astarLoop nbrs prob goal fuel
            (astarPush prob goal e.gScore e.path visited' (nbrs e.room) openRest) visited'

/-- Fuel bound for find_path_astar: one initial entry plus at most one
entry per (expanded room, neighbor) pair. -/
def astarFuel (nbrs : Nat → List Nat) (numRooms : Nat) : Nat :=
  numRooms * (((List.range numRooms).map fun r => (nbrs r).length).foldr max 0 + 1) + 1

/-- The initial heap entry (h(start), 0, start, [start]). -/
def startEntry (prob : Nat → ℚ) (goal start : Nat) : AstarEntry :=
  { fScore := astarHeuristic prob goal start
    gScore := 0
    room := start
    path := [start] }

/-- Agent.find_path_astar. -/
def findPathAstar (nbrs : Nat → List Nat) (prob : Nat → ℚ) (numRooms : Nat)
    (start goal : Nat) : Option (List Nat) :=
  if start = goal then some [start]
  else astarLoop nbrs prob goal (astarFuel nbrs numRooms) [startEntry prob goal start] []

/-! ## CSP puzzle solver (csp_solver.py)

A puzzle is one of the three generated families; the generator's random
parameters (target sum / target product) are carried explicitly.  An
assignment is the insertion-ordered dictionary of the solver, embedded
as an association list with unique keys; a new binding is appended at
the tail, matching Python dict insertion order. -/

/-- The three generated puzzle families with their random parameters. -/
inductive CSPPuzzle where
  | easy (targetSum : ℤ)
  | medium (targetSum : ℤ)
  | hard (targetProduct targetSum : ℤ)

/-- A partial assignment: insertion-ordered (variable, value) pairs. -/
abbrev CSPAssignment := List (String × ℤ)

/-- Lookup of a variable in an assignment (dict access / membership). -/
def lookupVar (a : CSPAssignment) (v : String) : Option ℤ := List.lookup v a

/-- The puzzle's variable list (declaration order). -/
def puzzleVars : CSPPuzzle → List String
  | .easy _ => ["X", "Y"]
  | .medium _ => ["A", "B", "C"]
  | .hard _ _ => ["W", "X", "Y", "Z"]

/-- The puzzle's domains (identical for every variable of a family). -/
def puzzleDomain : CSPPuzzle → List ℤ
  | .easy _ => [1, 2, 3, 4]
  | .medium _ => [1, 2, 3, 4, 5]
  | .hard _ _ => [1, 2, 3, 4, 5, 6]

/-- len(assigned) == len(set(assigned)) for the value list. -/
def allDistinct : List ℤ → Bool
  | [] => true
  | x :: xs => !(xs.contains x) && allDistinct xs

/-- constraint_sum of the easy family. -/
def easyConstraintSum (t : ℤ) (a : CSPAssignment) : Bool :=
  match lookupVar a "X", lookupVar a "Y" with
  | some x, some y => x + y == t
  | _, _ => true

/-- constraint_different of the easy family. -/
def easyConstraintDifferent (a : CSPAssignment) : Bool :=
  match lookupVar a "X", lookupVar a "Y" with
  | some x, some y => x != y
  | _, _ => true

/-- constraint_sum of the medium family. -/
def mediumConstraintSum (t : ℤ) (a : CSPAssignment) : Bool :=
  match lookupVar a "A", lookupVar a "B", lookupVar a "C" with
  | some x, some y, some z => x + y + z == t
  | _, _, _ => true

/-- constraint_all_different (medium and hard): the values assigned so
far, in dictionary order, are pairwise distinct. -/
def constraintAllDifferent (a : CSPAssignment) : Bool :=
  allDistinct (a.map Prod.snd)

/-- constraint_order of the medium family: A < B when both assigned. -/
def mediumConstraintOrder (a : CSPAssignment) : Bool :=
  match lookupVar a "A", lookupVar a "B" with
  | some x, some y => x < y
  | _, _ => true

/-- constraint_product_sum of the hard family. -/
def hardConstraintProductSum (tp ts : ℤ) (a : CSPAssignment) : Bool :=
  match lookupVar a "W", lookupVar a "X", lookupVar a "Y", lookupVar a "Z" with
  | some w, some x, some y, some z => w * x == tp && y + z == ts
  | _, _, _, _ => true

/-- constraint_ordering of the hard family: W ≤ X when both assigned. -/
def hardConstraintOrdering (a : CSPAssignment) : Bool :=
  match lookupVar a "W", lookupVar a "X" with
  | some w, some x => w ≤ x
  | _, _ => true

/-- CSPSolver._is_consistent: all of the puzzle's constraints hold. -/
def isConsistent (p : CSPPuzzle) (a : CSPAssignment) : Bool :=
  match p with
  | .easy t => easyConstraintSum t a && easyConstraintDifferent a
  | .medium t => mediumConstraintSum t a && constraintAllDifferent a && mediumConstraintOrder a
  | .hard tp ts =>
      hardConstraintProductSum tp ts a && constraintAllDifferent a && hardConstraintOrdering a

/-- CSPSolver._select_unassigned_variable: first declared unassigned
variable. -/
def selectUnassigned (vars : List String) (a : CSPAssignment) : Option String :=
  (vars.filter fun v => (lookupVar a v).isNone).head?

/-- The for-loop of CSPSolver._backtrack over the domain of the chosen
variable: bind the next value, keep the assignment only if consistent,
recurse (through the continuation), undo and continue on failure. -/
def tryValues (p : CSPPuzzle) (recur : CSPAssignment → Option CSPAssignment)
    (a : CSPAssignment) (v : String) : List ℤ → Option CSPAssignment
  | [] => none
  | value :: rest =>
    let a' := a ++ [(v, value)]
    if isConsistent p a' then
      match recur a' with
      | some r => some r
      | none => tryValues p recur a v rest
    else tryValues p recur a v rest

/-- CSPSolver._backtrack with explicit fuel (one unit per nesting level;
solve supplies number-of-variables + 1, always enough). -/
def backtrack (p : CSPPuzzle) : Nat → CSPAssignment → Option CSPAssignment
  | 0, _ => none
  | fuel + 1, a =>
    if a.length = (puzzleVars p).length then
      if isConsistent p a then some a else none
    else
      match selectUnassigned (puzzleVars p) a with
      | none => none
      | some v => tryValues p (backtrack p fuel) a v (puzzleDomain p)

/-- CSPSolver.solve. -/
def solveCSP (p : CSPPuzzle) : Option CSPAssignment :=
  backtrack p ((puzzleVars p).length + 1) []

/-- CSPSolver.verify_solution: key set equals the variable set, every
value lies in its domain, and all constraints hold. -/
def verifySolution (p : CSPPuzzle) (user : CSPAssignment) : Bool :=
  let keys := user.map Prod.fst
  ((puzzleVars p).all fun v => keys.contains v) &&
  (keys.all fun k => (puzzleVars p).contains k) &&
  (user.all fun pr => (puzzleDomain p).contains pr.2) &&
  isConsistent p user

/-- A total candidate solution: a value from the domain for every
variable, satisfying every constraint on the full assignment. -/
def TotalSat (p : CSPPuzzle) (f : String → ℤ) : Prop :=
  (∀ v ∈ puzzleVars p, f v ∈ puzzleDomain p) ∧
  isConsistent p ((puzzleVars p).map fun v => (v, f v)) = true

/-- The partial assignment binding the first k declared variables to
their values under f — exactly the assignments the backtracker builds
along the branch that follows f. -/
def prefixAssign (p : CSPPuzzle) (f : String → ℤ) (k : Nat) : CSPAssignment :=
  ((puzzleVars p).take k).map fun v => (v, f v)

/-! ## Guard adversarial search (guard.py)

Floats extended with float('-inf') / float('inf') are embedded as
WithBot (WithTop ℚ); finite values coerce via XQ.ofQ. -/

/-- Rationals together with both infinities. -/
abbrev XQ := WithBot (WithTop ℚ)

/-- A finite value as an extended rational. -/
def XQ.ofQ (q : ℚ) : XQ := ((q : WithTop ℚ) : XQ)

/-- float('inf'). -/
def XQ.pinf : XQ := ((⊤ : WithTop ℚ) : XQ)

/-- The Knuth-Moore specification of a fail-soft alpha-beta result r
against the true minimax value m for the window (alpha, beta): exact
inside the window, an upper bound on m at or below alpha, a lower bound
on m at or beyond beta. -/
def KMtriple (r m alpha beta : XQ) : Prop :=
  (r ≤ alpha → m ≤ r) ∧ (alpha < r → r < beta → r = m) ∧ (beta ≤ r → r ≤ m)

/-- Guard._distance_to_room: BFS edge distance over unlocked edges,
999 when no path exists; fuel as in find_path_bfs. -/
def distLoop (nbrs : Nat → List Nat) (toRoom : Nat) :
    Nat → List (Nat × Nat) → List Nat → Option Nat
  | 0, _, _ => none
  | _ + 1, [], _ => none
  | fuel + 1, (current, dist) :: rest, visited =>
    if toRoom ∈ nbrs current then some (dist + 1)
    else
      let step := (nbrs current).foldl
        (fun (acc : List (Nat × Nat) × List Nat) n =>
          if n ∈ acc.2 then acc else (acc.1 ++ [(n, dist + 1)], n :: acc.2))
        (rest, visited)
      distLoop nbrs toRoom fuel step.1 step.2

/-- Guard._distance_to_room. -/
def distanceToRoom (nbrs : Nat → List Nat) (numRooms fromRoom toRoom : Nat) : Nat :=
  if fromRoom = toRoom then 0
  else
    match distLoop nbrs toRoom (numRooms + 1) [(fromRoom, 0)] [fromRoom] with
    | some d => d
    | none => 999

/-- Guard._evaluate_position: 100 on capture, -50 when unreachable
(distance sentinel 999), otherwise 50 / (distance + 1). -/
def evaluatePosition (nbrs : Nat → List Nat) (numRooms guardRoom playerRoom : Nat) : ℚ :=
  if guardRoom = playerRoom then 100.0
  else
    let distance := distanceToRoom nbrs numRooms guardRoom playerRoom
    if distance = 999 then -50.0
    else 50.0 / ((distance : ℚ) + 1)

/-- Maximum of a list of floats accumulated from an initial value
(the -inf starting accumulator of the source is absorbed by the first
element, so the fold starts at the first child value). -/
def listMaxQ (q : ℚ) (l : List ℚ) : ℚ := l.foldl max q

/-- Minimum counterpart for the minimizing layer. -/
def listMinQ (q : ℚ) (l : List ℚ) : ℚ := l.foldl min q

/-- Guard._minimax parametrized by the evaluation function (the source
calls self._evaluate_position; the wrapper below instantiates it). -/
def minimaxAux (nbrs : Nat → List Nat) (ev : Nat → Nat → ℚ) :
    Nat → Nat → Nat → Bool → ℚ
  | 0, guardRoom, playerRoom, _ => ev guardRoom playerRoom
  | depth + 1, guardRoom, playerRoom, isMaximizing =>
    if guardRoom = playerRoom then ev guardRoom playerRoom
    else if isMaximizing then
      match nbrs guardRoom with
      | [] => ev guardRoom playerRoom
      | n :: ns =>
        listMaxQ (minimaxAux nbrs ev depth n playerRoom false)
          (ns.map fun m => minimaxAux nbrs ev depth m playerRoom false)
    else
      match nbrs playerRoom with
      | [] => ev guardRoom playerRoom
      | n :: ns =>
        listMinQ (minimaxAux nbrs ev depth guardRoom n true)
          (ns.map fun m => minimaxAux nbrs ev depth guardRoom m true)

/-- Guard._minimax with the guard's evaluation function. -/
def guardMinimax (nbrs : Nat → List Nat) (numRooms depth guardRoom playerRoom : Nat)
    (isMaximizing : Bool) : ℚ :=
  minimaxAux nbrs (evaluatePosition nbrs numRooms) depth guardRoom playerRoom isMaximizing

/-- The maximizing for-loop of MinimaxAlphaBeta.minimax_alpha_beta:
recursive child calls come through childValue; maxv accumulates
max_value, alpha is raised by each child value, and the loop breaks as
soon as beta ≤ alpha. -/
def abMaxLoop (childValue : Nat → XQ → XQ → XQ) (beta : XQ) :
    List Nat → XQ → XQ → XQ
  | [], maxv, _ => maxv
  | n :: ns, maxv, alpha =>
    let v := childValue n alpha beta
    let maxv' := max maxv v
    let alpha' := max alpha v
    if beta ≤ alpha' then maxv' else abMaxLoop childValue beta ns maxv' alpha'

/-- The minimizing for-loop of MinimaxAlphaBeta.minimax_alpha_beta. -/
def abMinLoop (childValue : Nat → XQ → XQ → XQ) (alpha : XQ) :
    List Nat → XQ → XQ → XQ
  | [], minv, _ => minv
  | n :: ns, minv, beta =>
    let v := childValue n alpha beta
    let minv' := min minv v
    let beta' := min beta v
    if beta' ≤ alpha then minv' else abMinLoop childValue alpha ns minv' beta'

/-- MinimaxAlphaBeta.minimax_alpha_beta parametrized by the evaluation
function. -/
def alphaBetaAux (nbrs : Nat → List Nat) (ev : Nat → Nat → ℚ) :
    Nat → Nat → Nat → XQ → XQ → Bool → XQ
  | 0, guardRoom, playerRoom, _, _, _ => XQ.ofQ (ev guardRoom playerRoom)
  | depth + 1, guardRoom, playerRoom, alpha, beta, isMaximizing =>
    if guardRoom = playerRoom then XQ.ofQ (ev guardRoom playerRoom)
    else if isMaximizing then
      abMaxLoop (fun n a b => alphaBetaAux nbrs ev depth n playerRoom a b false)
        beta (nbrs guardRoom) ⊥ alpha
    else
      abMinLoop (fun n a b => alphaBetaAux nbrs ev depth guardRoom n a b true)
        alpha (nbrs playerRoom) XQ.pinf beta

/-- MinimaxAlphaBeta.minimax_alpha_beta with the guard's evaluation
function. -/
def guardAlphaBeta (nbrs : Nat → List Nat) (numRooms depth guardRoom playerRoom : Nat)
    (alpha beta : XQ) (isMaximizing : Bool) : XQ :=
  alphaBetaAux nbrs (evaluatePosition nbrs numRooms) depth guardRoom playerRoom
    alpha beta isMaximizing

/-- The configuration fields consumed by Guard. -/
structure GuardConfig where
  guardEnabled : Bool
  minimaxDepth : Nat

/-- Mutable guard state: position, move counter, caught flag. -/
structure GuardState where
  currentRoom : Nat
  movesMade : Nat
  playerCaught : Bool
deriving DecidableEq

/-- Guard._minimax_decision: None when the guard has no unlocked
neighbor; otherwise the first neighbor of strictly maximal minimax
value (best_value starts at float('-inf')). -/
def minimaxDecision (cfg : GuardConfig) (nbrs : Nat → List Nat) (numRooms : Nat)
    (guardRoom playerRoom : Nat) : Option Nat :=
  match nbrs guardRoom with
  | [] => none
  | neighbors =>
    (neighbors.foldl
      (fun (acc : Option Nat × XQ) n =>
        let value := XQ.ofQ
          (guardMinimax nbrs numRooms (cfg.minimaxDepth - 1) n playerRoom false)
        if acc.2 < value then (some n, value) else acc)
      (none, ⊥)).1

/-- Guard.make_move. -/
def makeMove (cfg : GuardConfig) (nbrs : Nat → List Nat) (numRooms : Nat)
    (gs : GuardState) (playerRoom : Nat) : GuardState × Nat × String :=
  if !cfg.guardEnabled then (gs, gs.currentRoom, "Guard is disabled")
  else
    match minimaxDecision cfg nbrs numRooms gs.currentRoom playerRoom with
    | some bestMove =>
      let oldRoom := gs.currentRoom
      let gs1 : GuardState :=
        { gs with currentRoom := bestMove, movesMade := gs.movesMade + 1 }
      if gs1.currentRoom = playerRoom then
        ({ gs1 with playerCaught := true }, gs1.currentRoom,
          "👮 GUARD moved from Room " ++ toString oldRoom ++ " to Room " ++
            toString bestMove ++ " and CAUGHT THE PLAYER!")
      else
        let distance := distanceToRoom nbrs numRooms gs1.currentRoom playerRoom
        (gs1, gs1.currentRoom,
          "👮 Guard moved from Room " ++ toString oldRoom ++ " to Room " ++
            toString bestMove ++ " (distance to player: " ++ toString distance ++ ")")
    | none => (gs, gs.currentRoom, "Guard couldn\x27t find a move")

/-! ## Environment and Agent (environment.py, agent.py) -/

/-- The environment's mutable per-room data and key bookkeeping, as
consumed by Agent.move_to.  Per-room record fields are functions of the
room id. -/
structure Env where
  roomCount : Nat
  roomName : Nat → String
  neighbors : Nat → List (Nat × Bool)
  hasTrap : Nat → Bool
  trapTriggered : Nat → Bool
  hasKey : Nat → Bool
  keyId : Nat → Nat
  roomVisited : Nat → Bool
  keysCollected : List Nat
  totalKeys : Nat

/-- Environment.get_unlocked_neighbors. -/
def Env.unlockedNeighbors (env : Env) (roomId : Nat) : List Nat :=
  ((env.neighbors roomId).filter fun pr => !pr.2).map Prod.fst

/-- Environment.trigger_trap: fires at most once per room. -/
def Env.triggerTrap (env : Env) (roomId : Nat) : Env × Bool :=
  if env.hasTrap roomId && !env.trapTriggered roomId then
    ({ env with trapTriggered := fun r => if r = roomId then true else env.trapTriggered r },
      true)
  else (env, false)

/-- Environment.collect_key: a key is collected at most once. -/
def Env.collectKey (env : Env) (roomId : Nat) : Env × Bool :=
  if env.hasKey roomId && !(env.keysCollected.contains (env.keyId roomId)) then
    ({ env with keysCollected := env.keyId roomId :: env.keysCollected }, true)
  else (env, false)

/-- The configuration fields consumed by Agent.move_to. -/
structure AgentConfig where
  trapDamage : ℤ

/-- Mutable agent state (the fields of Agent touched by move_to). -/
structure AgentState where
  currentRoom : Nat
  health : ℤ
  keysCollected : List Nat
  roomsVisited : List Nat
  belief : BeliefState
  movesMade : Nat
  trapsTriggered : Nat
  puzzlesSolved : Nat

/-- set.add on the agent's room set (idempotent). -/
def addRoom (roomId : Nat) (rooms : List Nat) : List Nat :=
  if roomId ∈ rooms then rooms else roomId :: rooms

/-- Agent.move_to: fails without mutating anything when the target is
not an unlocked neighbor; otherwise moves, marks the room visited,
resolves traps (with a Bayesian update) and keys, and reports the
events. -/
def moveTo (cfg : AgentConfig) (env : Env) (a : AgentState) (roomId : Nat) :
    Env × AgentState × Bool × String :=
  if roomId ∉ env.unlockedNeighbors a.currentRoom then
    (env, a, false, "Cannot move to that room (locked or not connected)")
  else
    let a1 : AgentState :=
      { a with currentRoom := roomId
               movesMade := a.movesMade + 1
               roomsVisited := addRoom roomId a.roomsVisited }
    let env1 : Env :=
      { env with roomVisited := fun r => if r = roomId then true else env.roomVisited r }
    let msg0 := "Moved to " ++ env1.roomName roomId ++ " (Room " ++ toString roomId ++ ")"
    let trapRes := env1.triggerTrap roomId
    let env2 := trapRes.1
    let afterTrap : AgentState × List String :=
      if trapRes.2 then
        ({ a1 with health := a1.health - cfg.trapDamage
                   trapsTriggered := a1.trapsTriggered + 1
                   belief := updateBelief a1.belief roomId "trap" },
          [msg0, "⚠ TRAP TRIGGERED! Lost " ++ toString cfg.trapDamage ++
            " health. Health: " ++ toString (a1.health - cfg.trapDamage)])
      else
        ({ a1 with belief := updateBelief a1.belief roomId "safe" }, [msg0])
    let a2 := afterTrap.1
    let keyRes := env2.collectKey roomId
    let env3 := keyRes.1
    let final : AgentState × List String :=
      if keyRes.2 then
        let kid := env2.keyId roomId
        ({ a2 with keysCollected := addRoom kid a2.keysCollected },
          afterTrap.2 ++ ["🔑 Found KEY #" ++ toString kid ++ "! Total keys: " ++
            toString (addRoom kid a2.keysCollected).length ++ "/" ++ toString env3.totalKeys])
      else (a2, afterTrap.2)
    (env3, final.1, true, String.intercalate " | " final.2)

/-! ## Concrete fixtures used by witnesses and counterexamples -/

/-- A three-room path graph 0 - 1 - 2 (all edges unlocked). -/
def lineNbrs : Nat → List Nat := fun r =>
  if r = 0 then [1] else if r = 1 then [0, 2] else if r = 2 then [1] else []

/-- A two-room graph with a single unlocked edge 0 - 1, so every room
of the graph has an unlocked neighbor. -/
def pairNbrs : Nat → List Nat := fun r => if r = 0 then [1] else [0]

/-- A graph with no unlocked edges at all (every room is isolated). -/
def isolatedNbrs : Nat → List Nat := fun _ => []

/-- The default belief configuration (config.py). -/
def defaultBeliefConfig : BeliefConfig :=
  { initialTrapProbability := 0.2, observationReliability := 0.9 }

/-- A belief state whose room 0 carries probability 0: reachable by
supplying a configured prior of 0, and the input refuting claim C3 as
stated. -/
def zeroPriorBeliefState : BeliefState :=
  initBeliefState { initialTrapProbability := 0, observationReliability := 0.9 } 1

/-- The ten-room belief fixture of the spec scenarios. -/
def tenRoomBeliefState : BeliefState := initBeliefState defaultBeliefConfig 10

/-- A two-room environment for the move_to witness: rooms 0 and 1 with
one unlocked edge between them, no traps or keys. -/
def witnessEnv : Env :=
  { roomCount := 2
    roomName := fun r => if r = 0 then "Entrance (START)" else "Exit Door (ESCAPE)"
    neighbors := fun r => if r = 0 then [(1, false)] else [(0, false)]
    hasTrap := fun _ => false
    trapTriggered := fun _ => false
    hasKey := fun _ => false
    keyId := fun _ => 0
    roomVisited := fun _ => false
    keysCollected := []
    totalKeys := 0 }

/-- The agent fixture starting in room 0 of witnessEnv. -/
def witnessAgent : AgentState :=
  { currentRoom := 0
    health := 100
    keysCollected := []
    roomsVisited := [0]
    belief := initBeliefState defaultBeliefConfig 2
    movesMade := 0
    trapsTriggered := 0
    puzzlesSolved := 0 }

/-- A guard standing in a room with no unlocked neighbors. -/
def strandedGuard : GuardState :=
  { currentRoom := 0, movesMade := 0, playerCaught := false }

/-- The default guard configuration (config.py). -/
def defaultGuardConfig : GuardConfig := { guardEnabled := true, minimaxDepth := 3 }

/-! ## Theorems: Bayesian belief system -/

theorem propagateBeliefs_numRooms (s : BeliefState) (o : Nat) (obs : String) :
    (propagateBeliefs s o obs).numRooms = s.numRooms := by
  unfold propagateBeliefs; split_ifs <;> rfl

theorem propagateBeliefs_cfg (s : BeliefState) (o : Nat) (obs : String) :
    (propagateBeliefs s o obs).cfg = s.cfg := by
  unfold propagateBeliefs; split_ifs <;> rfl

theorem propagateBeliefs_observations (s : BeliefState) (o : Nat) (obs : String) :
    (propagateBeliefs s o obs).observations = s.observations := by
  unfold propagateBeliefs; split_ifs <;> rfl

theorem propagateBeliefs_beliefs_self (s : BeliefState) (o : Nat) (obs : String) :
    (propagateBeliefs s o obs).trapBeliefs o = s.trapBeliefs o := by
  unfold propagateBeliefs; split_ifs <;> simp

theorem propagateBeliefs_beliefs_observed (s : BeliefState) (o : Nat) (obs : String)
    (r' : Nat) (h : (s.observations r').isSome) :
    (propagateBeliefs s o obs).trapBeliefs r' = s.trapBeliefs r' := by
  have hne : ¬ s.observations r' = none := by
    intro hn
    rw [hn] at h
    simp at h
  have hcond : ¬ (r' < s.numRooms ∧ r' ≠ o ∧ s.observations r' = none) := by
    rintro ⟨-, -, hnone⟩
    exact hne hnone
  unfold propagateBeliefs
  split_ifs with h1 h2
  · simp [hcond]
  · simp [hcond]
  · rfl

theorem updateBelief_numRooms (s : BeliefState) (r : Nat) (obs : String) :
    (updateBelief s r obs).numRooms = s.numRooms := by
  unfold updateBelief
  by_cases h : r < s.numRooms
  · rw [if_pos h]
    exact propagateBeliefs_numRooms _ _ _
  · rw [if_neg h]

theorem updateBelief_cfg (s : BeliefState) (r : Nat) (obs : String) :
    (updateBelief s r obs).cfg = s.cfg := by
  unfold updateBelief
  by_cases h : r < s.numRooms
  · rw [if_pos h]
    exact propagateBeliefs_cfg _ _ _
  · rw [if_neg h]

/-- The posterior written into the observed room by update_belief. -/
theorem updateBelief_beliefs_self (s : BeliefState) (r : Nat) (obs : String)
    (h : r < s.numRooms) :
    (updateBelief s r obs).trapBeliefs r =
      (let prior := s.trapBeliefs r
       let likelihoodTrap : ℚ :=
         if obs = "trap" then 1.0 else 1.0 - s.cfg.observationReliability
       let likelihoodNoTrap : ℚ :=
         if obs = "trap" then 0.0 else s.cfg.observationReliability
       let evidence := likelihoodTrap * prior + likelihoodNoTrap * (1 - prior)
       if evidence > 0 then likelihoodTrap * prior / evidence else 0.0) := by
  unfold updateBelief
  rw [if_pos h]
  simp only [propagateBeliefs_beliefs_self]
  simp

/-- An already-observed room keeps its probability through
update_belief of a different room. -/
theorem updateBelief_beliefs_frame (s : BeliefState) (r : Nat) (obs : String)
    (r' : Nat) (o' : String) (hobs : s.observations r' = some o') (hne : r' ≠ r) :
    (updateBelief s r obs).trapBeliefs r' = s.trapBeliefs r' := by
  unfold updateBelief
  by_cases h : r < s.numRooms
  · rw [if_pos h]
    show (propagateBeliefs _ r obs).trapBeliefs r' = s.trapBeliefs r'
    rw [propagateBeliefs_beliefs_observed]
    · simp [hne]
    · simp [hne, hobs]
  · rw [if_neg h]

/-- Claim C6: for every call update_belief(r, obs) and every room r'
different from r that has already been observed, the probability of r'
is unchanged: indirect propagation modifies only unobserved rooms. -/
theorem claimC6 (s : BeliefState) (r : Nat) (obs : String) (r' : Nat) (o' : String)
    (hobs : s.observations r' = some o') (hne : r' ≠ r) :
    getTrapProbability (updateBelief s r obs) r' = getTrapProbability s r' := by
  unfold getTrapProbability
  rw [updateBelief_numRooms, updateBelief_beliefs_frame s r obs r' o' hobs hne]

/-- Witness for C6: room 1 is observed safe, then room 2 is observed as
a trap; room 1's probability is untouched by the second update. -/
theorem claimC6_witness :
    getTrapProbability
        (updateBelief (updateBelief tenRoomBeliefState 1 "safe") 2 "trap") 1 =
      getTrapProbability (updateBelief tenRoomBeliefState 1 "safe") 1 :=
  claimC6 (updateBelief tenRoomBeliefState 1 "safe") 2 "trap" 1 "safe" (by decide)
    (by decide)

/-- The trap posterior: certainty when the prior is positive, 0 when the
prior is 0 (the evidence > 0 guard fails). -/
theorem updateBelief_trap_posterior (s : BeliefState) (r : Nat) (hr : r < s.numRooms) :
    (updateBelief s r "trap").trapBeliefs r =
      (if 0 < s.trapBeliefs r then 1 else 0) := by
  rw [updateBelief_beliefs_self s r "trap" hr]
  by_cases hp : 0 < s.trapBeliefs r
  · rw [if_pos hp]
    simp only []
    norm_num
    rw [if_pos hp]
    exact div_self (ne_of_gt hp)
  · rw [if_neg hp]
    simp only []
    norm_num
    exact fun h => absurd h hp

/-- The posterior for any observation other than "trap" (the source's
else branch, including "safe"). -/
theorem updateBelief_nontrap_posterior (s : BeliefState) (r : Nat) (obs : String)
    (hr : r < s.numRooms) (hobs : obs ≠ "trap") :
    (updateBelief s r obs).trapBeliefs r =
      (let rel := s.cfg.observationReliability
       let p := s.trapBeliefs r
       let evidence := (1 - rel) * p + rel * (1 - p)
       if 0 < evidence then (1 - rel) * p / evidence else 0) := by
  rw [updateBelief_beliefs_self s r obs hr]
  simp only [if_neg hobs]
  norm_num

/-- Claim C3 as literally stated fails on the code: when a room's
current probability is 0, observing a trap leaves the posterior at 0
(the evidence > 0 guard takes the else branch), not 1. -/
theorem claimC3_cex :
    getTrapProbability (updateBelief zeroPriorBeliefState 0 "trap") 0 = 0 ∧
      (0 : ℚ) ≠ 1 := by
  constructor
  · have h0 : (0 : Nat) < zeroPriorBeliefState.numRooms := by decide
    have := updateBelief_trap_posterior zeroPriorBeliefState 0 h0
    unfold getTrapProbability
    rw [updateBelief_numRooms, if_pos h0, this]
    norm_num [zeroPriorBeliefState, initBeliefState]
  · norm_num

/-- Claim C3 (amended): with reliability in (0,1) and the current
probability p in [0,1], update_belief(r,"trap") sets r to exactly 1
provided p is positive (if p = 0 the posterior is 0), and
update_belief(r,"safe") sets r to (1-rel)*p / ((1-rel)*p + rel*(1-p));
in both cases get_trap_probability reports that value afterwards,
propagation never touching the observed room. -/
theorem claimC3_amended (s : BeliefState) (r : Nat) (hr : r < s.numRooms)
    (hrel0 : 0 < s.cfg.observationReliability)
    (hrel1 : s.cfg.observationReliability < 1)
    (hp0 : 0 ≤ s.trapBeliefs r) (hp1 : s.trapBeliefs r ≤ 1) :
    (0 < s.trapBeliefs r → getTrapProbability (updateBelief s r "trap") r = 1) ∧
    getTrapProbability (updateBelief s r "safe") r =
      (1 - s.cfg.observationReliability) * s.trapBeliefs r /
        ((1 - s.cfg.observationReliability) * s.trapBeliefs r +
          s.cfg.observationReliability * (1 - s.trapBeliefs r)) := by
  have hgt : ∀ obs : String,
      getTrapProbability (updateBelief s r obs) r = (updateBelief s r obs).trapBeliefs r := by
    intro obs
    unfold getTrapProbability
    rw [updateBelief_numRooms, if_pos hr]
  constructor
  · intro hp
    rw [hgt "trap", updateBelief_trap_posterior s r hr, if_pos hp]
  · rw [hgt "safe", updateBelief_nontrap_posterior s r "safe" hr (by decide)]
    have hev : 0 < (1 - s.cfg.observationReliability) * s.trapBeliefs r +
        s.cfg.observationReliability * (1 - s.trapBeliefs r) := by
      rcases lt_or_eq_of_le hp0 with hpos | hzero
      · have h1 : 0 < (1 - s.cfg.observationReliability) * s.trapBeliefs r :=
          mul_pos (by linarith) hpos
        have h2 : 0 ≤ s.cfg.observationReliability * (1 - s.trapBeliefs r) :=
          mul_nonneg (le_of_lt hrel0) (by linarith)
        linarith
      · rw [← hzero]
        have h2 : 0 < s.cfg.observationReliability * (1 - 0) := by
          norm_num
          exact hrel0
        linarith [h2]
    simp only []
    rw [if_pos hev]

/-- Witness for the amended C3: the spec scenario with prior 0.2 and
reliability 0.9. -/
theorem claimC3_amended_witness :
    (0 < tenRoomBeliefState.trapBeliefs 3 →
      getTrapProbability (updateBelief tenRoomBeliefState 3 "trap") 3 = 1) ∧
    getTrapProbability (updateBelief tenRoomBeliefState 3 "safe") 3 =
      (1 - tenRoomBeliefState.cfg.observationReliability) * tenRoomBeliefState.trapBeliefs 3 /
        ((1 - tenRoomBeliefState.cfg.observationReliability) * tenRoomBeliefState.trapBeliefs 3 +
          tenRoomBeliefState.cfg.observationReliability * (1 - tenRoomBeliefState.trapBeliefs 3)) :=
  claimC3_amended tenRoomBeliefState 3 (by decide)
    (by norm_num [tenRoomBeliefState, defaultBeliefConfig, initBeliefState])
    (by norm_num [tenRoomBeliefState, defaultBeliefConfig, initBeliefState])
    (by norm_num [tenRoomBeliefState, defaultBeliefConfig, initBeliefState])
    (by norm_num [tenRoomBeliefState, defaultBeliefConfig, initBeliefState])

/-- [0,1] bounds survive propagation pointwise. -/
theorem propagateBeliefs_bounds (s : BeliefState) (o : Nat) (obs : String)
    (hinv : ∀ x, 0 ≤ s.trapBeliefs x ∧ s.trapBeliefs x ≤ 1) :
    ∀ x, 0 ≤ (propagateBeliefs s o obs).trapBeliefs x ∧
      (propagateBeliefs s o obs).trapBeliefs x ≤ 1 := by
  intro x
  obtain ⟨hx0, hx1⟩ := hinv x
  have hdnn : (0 : ℚ) ≤ 1 / (((x : ℤ) - (o : ℤ)).natAbs : ℚ) :=
    one_div_nonneg.mpr (by positivity)
  unfold propagateBeliefs
  split_ifs with h1 h2 <;> try simp only []
  · constructor
    · by_cases hc : x < s.numRooms ∧ x ≠ o ∧ s.observations x = none
      · rw [if_pos hc]
        split_ifs with hd
        · refine le_min (by norm_num) ?_
          have : (0 : ℚ) ≤ 0.1 * (1 / (((x : ℤ) - (o : ℤ)).natAbs : ℚ)) := by
            have : (0 : ℚ) ≤ 0.1 := by norm_num
            exact mul_nonneg this hdnn
          linarith
        · exact hx0
      · rw [if_neg hc]
        exact hx0
    · by_cases hc : x < s.numRooms ∧ x ≠ o ∧ s.observations x = none
      · rw [if_pos hc]
        split_ifs with hd
        · calc min (0.95 : ℚ) _ ≤ 0.95 := min_le_left _ _
            _ ≤ 1 := by norm_num
        · exact hx1
      · rw [if_neg hc]
        exact hx1
  · constructor
    · by_cases hc : x < s.numRooms ∧ x ≠ o ∧ s.observations x = none
      · rw [if_pos hc]
        split_ifs with hd
        · calc (0 : ℚ) ≤ 0.05 := by norm_num
            _ ≤ max 0.05 _ := le_max_left _ _
        · exact hx0
      · rw [if_neg hc]
        exact hx0
    · by_cases hc : x < s.numRooms ∧ x ≠ o ∧ s.observations x = none
      · rw [if_pos hc]
        split_ifs with hd
        · refine max_le (by norm_num) ?_
          have : (0 : ℚ) ≤ 0.05 * (1 / (((x : ℤ) - (o : ℤ)).natAbs : ℚ)) := by
            have h5 : (0 : ℚ) ≤ 0.05 := by norm_num
            exact mul_nonneg h5 hdnn
          linarith
        · exact hx1
      · rw [if_neg hc]
        exact hx1
  · exact ⟨hx0, hx1⟩

/-- [0,1] bounds survive a single update_belief call. -/
theorem updateBelief_bounds (s : BeliefState) (r : Nat) (obs : String)
    (hrel0 : 0 ≤ s.cfg.observationReliability) (hrel1 : s.cfg.observationReliability ≤ 1)
    (hinv : ∀ x, 0 ≤ s.trapBeliefs x ∧ s.trapBeliefs x ≤ 1) :
    ∀ x, 0 ≤ (updateBelief s r obs).trapBeliefs x ∧
      (updateBelief s r obs).trapBeliefs x ≤ 1 := by
  intro x
  unfold updateBelief
  by_cases h : r < s.numRooms
  · rw [if_pos h]
    refine propagateBeliefs_bounds _ r obs ?_ x
    intro y
    by_cases hy : y = r
    · subst hy
      simp only [eq_self_iff_true, if_true]
      by_cases ht : obs = "trap"
      · rw [if_pos ht, if_pos ht]
        obtain ⟨hy0, hy1⟩ := hinv y
        by_cases hev : (0 : ℚ) <
            1.0 * s.trapBeliefs y + 0.0 * (1 - s.trapBeliefs y)
        · rw [if_pos hev]
          have h1 : (1.0 : ℚ) * s.trapBeliefs y + 0.0 * (1 - s.trapBeliefs y) =
              s.trapBeliefs y := by norm_num
          rw [h1] at hev ⊢
          constructor
          · positivity
          · norm_num
            rw [div_self (ne_of_gt hev)]
        · rw [if_neg hev]
          norm_num
      · rw [if_neg ht, if_neg ht]
        obtain ⟨hy0, hy1⟩ := hinv y
        by_cases hev : (0 : ℚ) <
            (1.0 - s.cfg.observationReliability) * s.trapBeliefs y +
              s.cfg.observationReliability * (1 - s.trapBeliefs y)
        · rw [if_pos hev]
          have hnum : (0 : ℚ) ≤ (1.0 - s.cfg.observationReliability) * s.trapBeliefs y :=
            mul_nonneg (by norm_num; linarith) hy0
          constructor
          · exact div_nonneg hnum (le_of_lt hev)
          · rw [div_le_one hev]
            have h2 : (0 : ℚ) ≤ s.cfg.observationReliability * (1 - s.trapBeliefs y) :=
              mul_nonneg hrel0 (by linarith)
            linarith
        · rw [if_neg hev]
          norm_num
    · simp only [if_neg hy]
      exact hinv y
  · rw [if_neg h]
    exact hinv x

/-- Claim C5: starting from a configured prior in [0,1] with reliability
in (0,1), get_trap_probability stays within [0,1] for every room after
every finite sequence of update_belief calls with observations in
the set containing safe and trap. -/
theorem claimC5 (cfg : BeliefConfig) (numRooms : Nat) (updates : List (Nat × String))
    (r : Nat) (hprior0 : 0 ≤ cfg.initialTrapProbability)
    (hprior1 : cfg.initialTrapProbability ≤ 1)
    (hrel0 : 0 < cfg.observationReliability) (hrel1 : cfg.observationReliability < 1)
    (hobs : ∀ u ∈ updates, u.2 = "safe" ∨ u.2 = "trap") :
    0 ≤ getTrapProbability (applyUpdates (initBeliefState cfg numRooms) updates) r ∧
      getTrapProbability (applyUpdates (initBeliefState cfg numRooms) updates) r ≤ 1 := by
  suffices h : ∀ (s : BeliefState), s.cfg = cfg →
      (∀ x, 0 ≤ s.trapBeliefs x ∧ s.trapBeliefs x ≤ 1) →
      (∀ x, 0 ≤ (applyUpdates s updates).trapBeliefs x ∧
        (applyUpdates s updates).trapBeliefs x ≤ 1) by
    have hb := h (initBeliefState cfg numRooms) rfl
      (fun x => ⟨hprior0, hprior1⟩) r
    unfold getTrapProbability
    split_ifs
    · exact hb
    · norm_num
  clear hobs
  induction updates with
  | nil => intro s hcfg hinv; exact hinv
  | cons u us ih =>
    intro s hcfg hinv
    refine ih (updateBelief s u.1 u.2) ?_ ?_
    · rw [updateBelief_cfg, hcfg]
    · exact updateBelief_bounds s u.1 u.2 (by rw [hcfg]; exact le_of_lt hrel0)
        (by rw [hcfg]; exact le_of_lt hrel1) hinv

/-- Witness for C5: the spec's ten-room scenario after a safe and a trap
observation. -/
theorem claimC5_witness :
    0 ≤ getTrapProbability
        (applyUpdates (initBeliefState defaultBeliefConfig 10) [(3, "safe"), (7, "trap")]) 4 ∧
      getTrapProbability
        (applyUpdates (initBeliefState defaultBeliefConfig 10) [(3, "safe"), (7, "trap")]) 4 ≤ 1 :=
  claimC5 defaultBeliefConfig 10 [(3, "safe"), (7, "trap")] 4 (by norm_num [defaultBeliefConfig])
    (by norm_num [defaultBeliefConfig]) (by norm_num [defaultBeliefConfig])
    (by norm_num [defaultBeliefConfig]) (by decide)

/-- Claim C10: update_belief on a room id outside the belief dictionary
is a silent no-op, and get_trap_probability returns 0.0 for it. -/
theorem claimC10 (s : BeliefState) (roomId : Nat) (obs : String)
    (h : ¬ roomId < s.numRooms) :
    updateBelief s roomId obs = s ∧ getTrapProbability s roomId = 0 := by
  constructor
  · unfold updateBelief
    rw [if_neg h]
  · unfold getTrapProbability
    rw [if_neg h]
    norm_num

/-- Witness for C10: room 15 is outside the ten-room belief dictionary. -/
theorem claimC10_witness :
    updateBelief tenRoomBeliefState 15 "trap" = tenRoomBeliefState ∧
      getTrapProbability tenRoomBeliefState 15 = 0 :=
  claimC10 tenRoomBeliefState 15 "trap" (by decide)

/-! ## Theorems: Agent.move_to and Guard.make_move error handling -/

/-- Claim C7: move_to on a room that is not an unlocked neighbor of the
agent's position fails with a descriptive message and mutates neither
the environment nor any agent state (position, health, move counter,
visited set, keys, belief state). -/
theorem claimC7 (cfg : AgentConfig) (env : Env) (a : AgentState) (roomId : Nat)
    (h : roomId ∉ env.unlockedNeighbors a.currentRoom) :
    moveTo cfg env a roomId =
      (env, a, false, "Cannot move to that room (locked or not connected)") := by
  unfold moveTo
  rw [if_pos h]

/-- Witness for C7: room 0 is not an unlocked neighbor of itself in the
two-room fixture. -/
theorem claimC7_witness :
    moveTo { trapDamage := 20 } witnessEnv witnessAgent 0 =
      (witnessEnv, witnessAgent, false,
        "Cannot move to that room (locked or not connected)") :=
  claimC7 { trapDamage := 20 } witnessEnv witnessAgent 0 (by decide)

/-- Claim C9: when the guard's room has no unlocked neighbors (and the
guard is enabled), make_move reports the unchanged position with the
no-move message and leaves the guard state (position, move counter,
caught flag) untouched. -/
theorem claimC9 (cfg : GuardConfig) (nbrs : Nat → List Nat) (numRooms : Nat)
    (gs : GuardState) (playerRoom : Nat) (hen : cfg.guardEnabled = true)
    (hiso : nbrs gs.currentRoom = []) :
    makeMove cfg nbrs numRooms gs playerRoom =
      (gs, gs.currentRoom, "Guard couldn\x27t find a move") := by
  unfold makeMove minimaxDecision
  rw [hen, hiso]
  simp

/-- Witness for C9: a guard stranded in the isolated-room graph. -/
theorem claimC9_witness :
    makeMove defaultGuardConfig isolatedNbrs 6 strandedGuard 3 =
      (strandedGuard, strandedGuard.currentRoom, "Guard couldn\x27t find a move") :=
  claimC9 defaultGuardConfig isolatedNbrs 6 strandedGuard 3 (by decide) (by decide)

/-! ## Theorems: CSP solver -/

theorem lookupVar_eq_none_iff (a : CSPAssignment) (v : String) :
    lookupVar a v = none ↔ v ∉ a.map Prod.fst := by
  induction a with
  | nil => simp [lookupVar]
  | cons pr rest ih =>
    obtain ⟨k, b⟩ := pr
    simp only [lookupVar] at ih ⊢
    by_cases hv : v = k
    · subst hv
      simp [List.lookup_cons]
    · have hb : (v == k) = false := by simpa using hv
      simp [List.lookup_cons, hb, hv, ih]

theorem lookupVar_graph (l : List String) (f : String → ℤ) (v : String) (hnd : l.Nodup) :
    lookupVar (l.map fun u => (u, f u)) v = if v ∈ l then some (f v) else none := by
  induction l with
  | nil => simp [lookupVar]
  | cons u us ih =>
    rcases List.nodup_cons.mp hnd with ⟨hu, hus⟩
    rw [List.map_cons]
    simp only [lookupVar] at ih ⊢
    by_cases hv : v = u
    · subst hv
      simp [List.lookup_cons]
    · have hb : (v == u) = false := by simpa using hv
      simp [List.lookup_cons, hb, hv, ih hus]

theorem puzzleVars_nodup (p : CSPPuzzle) : (puzzleVars p).Nodup := by
  cases p
  · show (["X", "Y"] : List String).Nodup
    decide
  · show (["A", "B", "C"] : List String).Nodup
    decide
  · show (["W", "X", "Y", "Z"] : List String).Nodup
    decide

theorem selectUnassigned_eq (l : List String) (a : CSPAssignment) (k : Nat)
    (hk : a.map Prod.fst = l.take k) (hnd : l.Nodup) :
    selectUnassigned l a = l[k]? := by
  induction l generalizing a k with
  | nil =>
    rw [List.take_nil] at hk
    rcases List.map_eq_nil.mp hk with rfl
    rfl
  | cons x xs ih =>
    rcases List.nodup_cons.mp hnd with ⟨hx, hxs⟩
    cases k with
    | zero =>
      rw [List.take_zero] at hk
      rcases List.map_eq_nil.mp hk with rfl
      simp [selectUnassigned, lookupVar]
    | succ k =>
      rw [List.take_succ_cons] at hk
      cases a with
      | nil => simp at hk
      | cons pr a2 =>
        rw [List.map_cons, List.cons.injEq] at hk
        obtain ⟨hpr, hk2⟩ := hk
        unfold selectUnassigned
        rw [List.filter_cons]
        have hlx : (lookupVar (pr :: a2) x).isNone = false := by
          obtain ⟨k1, b1⟩ := pr
          simp only [] at hpr
          subst hpr
          simp [lookupVar, List.lookup_cons]
        rw [hlx]
        simp only [Bool.false_eq_true, if_false]
        have hcg : ∀ v ∈ xs,
            (lookupVar (pr :: a2) v).isNone = (lookupVar a2 v).isNone := by
          intro v hv
          have hvx : v ≠ x := fun h => hx (h ▸ hv)
          obtain ⟨k1, b1⟩ := pr
          simp only [] at hpr
          subst hpr
          have hb : (v == k1) = false := by simpa using hvx
          simp [lookupVar, List.lookup_cons, hb]
        rw [List.filter_congr hcg]
        have := ih a2 k hk2 hxs
        unfold selectUnassigned at this
        rw [this]
        simp

theorem graph_map_fst (f : String → ℤ) (l : List String) :
    (l.map fun v => (v, f v)).map Prod.fst = l := by
  induction l with
  | nil => rfl
  | cons x xs ih => simp [ih]

theorem prefixAssign_keys (p : CSPPuzzle) (f : String → ℤ) (k : Nat) :
    (prefixAssign p f k).map Prod.fst = (puzzleVars p).take k := by
  unfold prefixAssign
  exact graph_map_fst f _

theorem prefixAssign_length (p : CSPPuzzle) (f : String → ℤ) (k : Nat)
    (hk : k ≤ (puzzleVars p).length) : (prefixAssign p f k).length = k := by
  unfold prefixAssign
  rw [List.length_map, List.length_take]
  omega

theorem tryValues_eq_some (p : CSPPuzzle) (recur : CSPAssignment → Option CSPAssignment)
    (a : CSPAssignment) (v : String) (l : List ℤ) (r : CSPAssignment)
    (h : tryValues p recur a v l = some r) :
    ∃ value ∈ l, isConsistent p (a ++ [(v, value)]) = true ∧
      recur (a ++ [(v, value)]) = some r := by
  induction l with
  | nil => simp [tryValues] at h
  | cons x rest ih =>
    rw [tryValues] at h
    by_cases hc : isConsistent p (a ++ [(v, x)]) = true
    · rw [if_pos hc] at h
      rcases hrec : recur (a ++ [(v, x)]) with _ | r'
      · rw [hrec] at h
        rcases ih h with ⟨value, hvl, hcons, hr⟩
        exact ⟨value, List.mem_cons_of_mem _ hvl, hcons, hr⟩
      · rw [hrec] at h
        obtain rfl : r' = r := Option.some.inj h
        exact ⟨x, List.mem_cons_self _ _, hc, hrec⟩
    · rw [if_neg hc] at h
      rcases ih h with ⟨value, hvl, hcons, hr⟩
      exact ⟨value, List.mem_cons_of_mem _ hvl, hcons, hr⟩

theorem tryValues_isSome (p : CSPPuzzle) (recur : CSPAssignment → Option CSPAssignment)
    (a : CSPAssignment) (v : String) (l : List ℤ) (value : ℤ) (hv : value ∈ l)
    (hc : isConsistent p (a ++ [(v, value)]) = true)
    (hs : (recur (a ++ [(v, value)])).isSome) :
    (tryValues p recur a v l).isSome := by
  induction l with
  | nil => simp at hv
  | cons x rest ih =>
    rw [tryValues]
    by_cases hcx : isConsistent p (a ++ [(v, x)]) = true
    · rw [if_pos hcx]
      rcases hrec : recur (a ++ [(v, x)]) with _ | r'
      · rcases List.mem_cons.mp hv with rfl | hvrest
        · rw [hrec] at hs
          simp at hs
        · exact ih hvrest
      · simp
    · rw [if_neg hcx]
      rcases List.mem_cons.mp hv with rfl | hvrest
      · exact absurd hc hcx
      · exact ih hvrest

/-- Soundness invariant of the backtracker: along any branch whose
assignment binds exactly the first variables in order with in-domain
values, a returned assignment binds all variables in order with
in-domain values and satisfies every constraint. -/
theorem backtrack_sound (p : CSPPuzzle) :
    ∀ (fuel : Nat) (a r : CSPAssignment),
      a.map Prod.fst = (puzzleVars p).take a.length →
      (∀ pr ∈ a, pr.2 ∈ puzzleDomain p) →
      backtrack p fuel a = some r →
      r.map Prod.fst = puzzleVars p ∧ (∀ pr ∈ r, pr.2 ∈ puzzleDomain p) ∧
        isConsistent p r = true := by
  intro fuel
  induction fuel with
  | zero => intro a r _ _ h; simp [backtrack] at h
  | succ fuel ih =>
    intro a r hkeys hdom h
    rw [backtrack] at h
    by_cases hlen : a.length = (puzzleVars p).length
    · rw [if_pos hlen] at h
      by_cases hcons : isConsistent p a = true
      · rw [if_pos hcons] at h
        obtain rfl : a = r := Option.some.inj h
        refine ⟨?_, hdom, hcons⟩
        rw [hkeys, hlen, List.take_length]
      · rw [if_neg hcons] at h
        simp at h
    · rw [if_neg hlen] at h
      have hle : a.length ≤ (puzzleVars p).length := by
        have := congrArg List.length hkeys
        rw [List.length_map, List.length_take] at this
        omega
      have hlt : a.length < (puzzleVars p).length := lt_of_le_of_ne hle hlen
      have hsel : selectUnassigned (puzzleVars p) a = (puzzleVars p)[a.length]? :=
        selectUnassigned_eq _ a a.length hkeys (puzzleVars_nodup p)
      rcases hget : (puzzleVars p)[a.length]? with _ | v
      · rw [List.getElem?_eq_none_iff] at hget
        omega
      · rw [hsel, hget] at h
        rcases tryValues_eq_some p _ a v _ r h with ⟨value, hvdom, hvcons, hrec⟩
        refine ih (a ++ [(v, value)]) r ?_ ?_ hrec
        · rw [List.map_append, hkeys, List.length_append]
          simp only [List.map_cons, List.map_nil, List.length_cons, List.length_nil]
          rw [List.take_succ, hget]
          rfl
        · intro pr hpr
          rcases List.mem_append.mp hpr with hpa | hpv
          · exact hdom pr hpa
          · rcases List.mem_singleton.mp hpv with rfl
            exact hvdom

theorem prefixAssign_full (p : CSPPuzzle) (f : String → ℤ) (k : Nat)
    (hk : (puzzleVars p).length ≤ k) :
    prefixAssign p f k = (puzzleVars p).map fun v => (v, f v) := by
  unfold prefixAssign
  rw [List.take_all_of_le hk]

/-- Every prefix (in declaration order) of a satisfying total assignment
passes the consistency check: the generated constraint families return
true whenever a referenced variable is missing, and the all-different
check on a sublist of distinct values still holds. -/
theorem prefix_consistent (p : CSPPuzzle) (f : String → ℤ) (hf : TotalSat p f) (k : Nat) :
    isConsistent p (prefixAssign p f k) = true := by
  obtain ⟨hdom, hcons⟩ := hf
  cases p with
  | easy t =>
    rcases k with _ | _ | k
    · rfl
    · rfl
    · rw [prefixAssign_full _ f _ (by show 2 ≤ _ + 2; omega)]
      exact hcons
  | medium t =>
    have hfacts := hcons
    simp [isConsistent, puzzleVars, mediumConstraintSum, constraintAllDifferent,
      mediumConstraintOrder, allDistinct, lookupVar, List.lookup] at hfacts
    rcases k with _ | _ | _ | k
    · rfl
    · rfl
    · show isConsistent (CSPPuzzle.medium t) [("A", f "A"), ("B", f "B")] = true
      simp [isConsistent, mediumConstraintSum, constraintAllDifferent,
        mediumConstraintOrder, allDistinct, lookupVar, List.lookup]
      tauto
    · rw [prefixAssign_full _ f _ (by show 3 ≤ _ + 3; omega)]
      exact hcons
  | hard tp ts =>
    have hfacts := hcons
    simp [isConsistent, puzzleVars, hardConstraintProductSum, constraintAllDifferent,
      hardConstraintOrdering, allDistinct, lookupVar, List.lookup] at hfacts
    rcases k with _ | _ | _ | _ | k
    · rfl
    · rfl
    · show isConsistent (CSPPuzzle.hard tp ts) [("W", f "W"), ("X", f "X")] = true
      simp [isConsistent, hardConstraintProductSum, constraintAllDifferent,
        hardConstraintOrdering, allDistinct, lookupVar, List.lookup]
      tauto
    · show isConsistent (CSPPuzzle.hard tp ts)
        [("W", f "W"), ("X", f "X"), ("Y", f "Y")] = true
      simp [isConsistent, hardConstraintProductSum, constraintAllDifferent,
        hardConstraintOrdering, allDistinct, lookupVar, List.lookup]
      tauto
    · rw [prefixAssign_full _ f _ (by show 4 ≤ _ + 4; omega)]
      exact hcons

theorem prefixAssign_succ (p : CSPPuzzle) (f : String → ℤ) (k : Nat) (v : String)
    (hget : (puzzleVars p)[k]? = some v) :
    prefixAssign p f k ++ [(v, f v)] = prefixAssign p f (k + 1) := by
  unfold prefixAssign
  rw [List.take_succ, hget, List.map_append]
  rfl

/-- Completeness invariant of the backtracker: along the branch that
follows a satisfying total assignment, the search succeeds. -/
theorem backtrack_complete (p : CSPPuzzle) (f : String → ℤ) (hf : TotalSat p f) :
    ∀ (fuel k : Nat), k ≤ (puzzleVars p).length →
      (puzzleVars p).length - k < fuel →
      (backtrack p fuel (prefixAssign p f k)).isSome := by
  intro fuel
  induction fuel with
  | zero => intro k hk hfuel; omega
  | succ fuel ih =>
    intro k hk hfuel
    rw [backtrack]
    by_cases hlen : (prefixAssign p f k).length = (puzzleVars p).length
    · rw [if_pos hlen, if_pos (prefix_consistent p f hf k)]
      simp
    · rw [if_neg hlen]
      have hklen : (prefixAssign p f k).length = k := prefixAssign_length p f k hk
      have hklt : k < (puzzleVars p).length := by
        rcases lt_or_eq_of_le hk with h | h
        · exact h
        · exact absurd (hklen.trans h) hlen
      have hsel := selectUnassigned_eq (puzzleVars p) (prefixAssign p f k) k
        (prefixAssign_keys p f k) (puzzleVars_nodup p)
      rcases hget : (puzzleVars p)[k]? with _ | v
      · rw [List.getElem?_eq_none_iff] at hget
        omega
      · rw [hsel, hget]
        have hvmem : v ∈ puzzleVars p := by
          have := List.getElem?_eq_some_iff.mp hget
          rcases this with ⟨hlt, rfl⟩
          exact List.getElem_mem hlt
        refine tryValues_isSome p _ _ v _ (f v) (hf.1 v hvmem) ?_ ?_
        · rw [prefixAssign_succ p f k v hget]
          exact prefix_consistent p f hf (k + 1)
        · rw [prefixAssign_succ p f k v hget]
          exact ih (k + 1) hklt (by omega)

/-- Claim C4: verify_solution accepts every assignment produced by
solve (soundness), and solve returns the no-solution result only when
no total assignment drawn from the domains satisfies every constraint
(completeness over the finite domains). -/
theorem claimC4 (p : CSPPuzzle) :
    (∀ a, solveCSP p = some a → verifySolution p a = true) ∧
    (solveCSP p = none → ∀ f : String → ℤ, ¬ TotalSat p f) := by
  constructor
  · intro a ha
    unfold solveCSP at ha
    obtain ⟨hkeys, hdom, hcons⟩ :=
      backtrack_sound p ((puzzleVars p).length + 1) [] a (by simp) (by simp) ha
    unfold verifySolution
    simp only [Bool.and_eq_true]
    refine ⟨⟨⟨?_, ?_⟩, ?_⟩, hcons⟩
    · rw [List.all_eq_true]
      intro v hv
      rw [hkeys]
      simpa using hv
    · rw [List.all_eq_true]
      intro v hv
      rw [hkeys] at hv
      simpa using hv
    · rw [List.all_eq_true]
      intro pr hpr
      simpa using hdom pr hpr
  · intro hnone f hTS
    have hcomp := backtrack_complete p f hTS ((puzzleVars p).length + 1) 0
      (Nat.zero_le _) (by omega)
    have hpre : prefixAssign p f 0 = [] := rfl
    rw [hpre] at hcomp
    unfold solveCSP at hnone
    rw [hnone] at hcomp
    simp at hcomp

/-- Witness for C4: solve finds a verified solution of an easy puzzle
with target sum 5, and reports no solution for the unsatisfiable target
sum 100, whence no total assignment satisfies that puzzle. -/
theorem claimC4_witness :
    verifySolution (CSPPuzzle.easy 5) [("X", 1), ("Y", 4)] = true ∧
      ¬ TotalSat (CSPPuzzle.easy 100) (fun _ => 1) :=
  ⟨(claimC4 (CSPPuzzle.easy 5)).1 [("X", 1), ("Y", 4)] (by rfl),
   fun h => (claimC4 (CSPPuzzle.easy 100)).2 (by rfl) (fun _ => 1) h⟩

/-! ## Theorems: minimax versus alpha-beta (guard.py) -/

theorem XQ.ofQ_max (a b : ℚ) : XQ.ofQ (max a b) = max (XQ.ofQ a) (XQ.ofQ b) := by
  unfold XQ.ofQ
  rw [WithTop.coe_max, WithBot.coe_max]

theorem XQ.ofQ_min (a b : ℚ) : XQ.ofQ (min a b) = min (XQ.ofQ a) (XQ.ofQ b) := by
  unfold XQ.ofQ
  rw [WithTop.coe_min, WithBot.coe_min]

theorem XQ.bot_lt_ofQ (q : ℚ) : (⊥ : XQ) < XQ.ofQ q := WithBot.bot_lt_coe _

theorem XQ.ofQ_lt_pinf (q : ℚ) : XQ.ofQ q < XQ.pinf := by
  unfold XQ.ofQ XQ.pinf
  exact WithBot.coe_lt_coe.mpr (WithTop.coe_lt_top q)

theorem XQ.le_pinf (x : XQ) : x ≤ XQ.pinf := by
  cases x with
  | none => exact bot_le
  | some a => exact WithBot.coe_le_coe.mpr le_top

theorem XQ.bot_lt_pinf : (⊥ : XQ) < XQ.pinf := WithBot.bot_lt_coe _

theorem le_foldl_max (mv : Nat → XQ) (l : List Nat) :
    ∀ init : XQ, init ≤ l.foldl (fun acc n => max acc (mv n)) init := by
  induction l with
  | nil => intro init; exact le_refl _
  | cons x xs ih =>
    intro init
    rw [List.foldl_cons]
    exact le_trans (le_max_left init (mv x)) (ih (max init (mv x)))

theorem foldl_max_mono (mv : Nat → XQ) (l : List Nat) :
    ∀ i1 i2 : XQ, i1 ≤ i2 →
      l.foldl (fun acc n => max acc (mv n)) i1 ≤ l.foldl (fun acc n => max acc (mv n)) i2 := by
  induction l with
  | nil => intro i1 i2 h; exact h
  | cons x xs ih =>
    intro i1 i2 h
    rw [List.foldl_cons, List.foldl_cons]
    exact ih _ _ (max_le_max h (le_refl _))

theorem foldl_max_max (mv : Nat → XQ) (l : List Nat) :
    ∀ init c : XQ,
      l.foldl (fun acc n => max acc (mv n)) (max init c) =
        max (l.foldl (fun acc n => max acc (mv n)) init) c := by
  induction l with
  | nil => intro init c; rfl
  | cons x xs ih =>
    intro init c
    rw [List.foldl_cons, List.foldl_cons]
    rw [sup_right_comm init c (mv x)]
    exact ih (max init (mv x)) c

theorem foldl_min_le (mv : Nat → XQ) (l : List Nat) :
    ∀ init : XQ, l.foldl (fun acc n => min acc (mv n)) init ≤ init := by
  induction l with
  | nil => intro init; exact le_refl _
  | cons x xs ih =>
    intro init
    rw [List.foldl_cons]
    exact le_trans (ih (min init (mv x))) (min_le_left init (mv x))

theorem foldl_min_mono (mv : Nat → XQ) (l : List Nat) :
    ∀ i1 i2 : XQ, i1 ≤ i2 →
      l.foldl (fun acc n => min acc (mv n)) i1 ≤ l.foldl (fun acc n => min acc (mv n)) i2 := by
  induction l with
  | nil => intro i1 i2 h; exact h
  | cons x xs ih =>
    intro i1 i2 h
    rw [List.foldl_cons, List.foldl_cons]
    exact ih _ _ (min_le_min h (le_refl _))

theorem foldl_min_min (mv : Nat → XQ) (l : List Nat) :
    ∀ init c : XQ,
      l.foldl (fun acc n => min acc (mv n)) (min init c) =
        min (l.foldl (fun acc n => min acc (mv n)) init) c := by
  induction l with
  | nil => intro init c; rfl
  | cons x xs ih =>
    intro init c
    rw [List.foldl_cons, List.foldl_cons]
    rw [inf_right_comm init c (mv x)]
    exact ih (min init (mv x)) c

/-- The maximizing alpha-beta loop satisfies the Knuth-Moore
specification relative to the running true maximum, for any window and
any accumulator dominated by alpha. -/
theorem abMaxLoop_km (F : Nat → XQ → XQ → XQ) (mv : Nat → XQ) (beta : XQ) :
    ∀ l : List Nat,
      (∀ n ∈ l, ∀ a b : XQ, a < b → KMtriple (F n a b) (mv n) a b) →
      ∀ maxv alpha : XQ, maxv ≤ alpha → alpha < beta →
        KMtriple (abMaxLoop F beta l maxv alpha)
          (l.foldl (fun acc n => max acc (mv n)) maxv) alpha beta := by
  intro l
  induction l with
  | nil =>
    intro _ maxv alpha _ _
    exact ⟨fun _ => le_refl _, fun _ _ => rfl, fun _ => le_refl _⟩
  | cons n ns ih =>
    intro hF maxv alpha hma hab
    rw [abMaxLoop, List.foldl_cons]
    have hchild := hF n (List.mem_cons_self n ns) alpha beta hab
    by_cases hba : beta ≤ max alpha (F n alpha beta)
    · rw [if_pos hba]
      have hbv : beta ≤ F n alpha beta := by
        rcases le_max_iff.mp hba with h | h
        · exact absurd h (not_le.mpr hab)
        · exact h
      have hvm : F n alpha beta ≤ mv n := hchild.2.2 hbv
      refine ⟨?_, ?_, ?_⟩
      · intro hra
        exact absurd (le_trans hbv (le_trans (le_max_right maxv _) hra))
          (not_le.mpr hab)
      · intro _ hrb
        exact absurd (lt_of_le_of_lt (le_trans hbv (le_max_right maxv _)) hrb)
          (lt_irrefl beta)
      · intro _
        exact le_trans (max_le_max (le_refl maxv) hvm)
          (le_foldl_max mv ns (max maxv (mv n)))
    · rw [if_neg hba]
      have hab' : max alpha (F n alpha beta) < beta := not_le.mp hba
      have hinv' : max maxv (F n alpha beta) ≤ max alpha (F n alpha beta) :=
        max_le_max hma (le_refl _)
      have hF' : ∀ m ∈ ns, ∀ a b : XQ, a < b → KMtriple (F m a b) (mv m) a b :=
        fun m hm => hF m (List.mem_cons_of_mem n hm)
      have IH := ih hF' (max maxv (F n alpha beta)) (max alpha (F n alpha beta)) hinv' hab'
      by_cases hva : F n alpha beta ≤ alpha
      · have hmv : mv n ≤ F n alpha beta := hchild.1 hva
        have halpha' : max alpha (F n alpha beta) = alpha := max_eq_left hva
        rw [halpha'] at IH ⊢
        have hMle : ns.foldl (fun acc m => max acc (mv m)) (max maxv (mv n)) ≤
            ns.foldl (fun acc m => max acc (mv m)) (max maxv (F n alpha beta)) :=
          foldl_max_mono mv ns _ _ (max_le_max (le_refl _) hmv)
        have hM'le : ns.foldl (fun acc m => max acc (mv m)) (max maxv (F n alpha beta)) ≤
            max (ns.foldl (fun acc m => max acc (mv m)) (max maxv (mv n))) (F n alpha beta) := by
          have h1 : max maxv (F n alpha beta) ≤ max (max maxv (mv n)) (F n alpha beta) :=
            max_le_max (le_max_left _ _) (le_refl _)
          exact le_trans (foldl_max_mono mv ns _ _ h1)
            (le_of_eq (foldl_max_max mv ns (max maxv (mv n)) (F n alpha beta)))
        refine ⟨?_, ?_, ?_⟩
        · intro hra
          exact le_trans hMle (IH.1 hra)
        · intro har hrb
          have hr := IH.2.1 har hrb
          rw [hr]
          rcases max_choice (ns.foldl (fun acc m => max acc (mv m)) (max maxv (mv n)))
            (F n alpha beta) with hmx | hmx
          · rw [hmx] at hM'le
            exact le_antisymm hM'le hMle
          · rw [hmx] at hM'le
            rw [hr] at har
            exact absurd (le_trans hM'le hva) (not_le.mpr har)
        · intro hbr
          have hrM' := IH.2.2 hbr
          rcases max_choice (ns.foldl (fun acc m => max acc (mv m)) (max maxv (mv n)))
            (F n alpha beta) with hmx | hmx
          · rw [hmx] at hM'le
            exact le_trans hrM' hM'le
          · rw [hmx] at hM'le
            exact absurd (le_trans hbr (le_trans hrM' (le_trans hM'le hva)))
              (not_le.mpr hab)
      · have hav : alpha < F n alpha beta := not_le.mp hva
        have hvb : F n alpha beta < beta :=
          lt_of_le_of_lt (le_max_right alpha _) hab'
        have hveq : F n alpha beta = mv n := hchild.2.1 hav hvb
        rw [← hveq]
        have halpha' : max alpha (F n alpha beta) = F n alpha beta :=
          max_eq_right (le_of_lt hav)
        refine ⟨?_, ?_, ?_⟩
        · intro hra
          exact IH.1 (le_trans hra (le_max_left alpha _))
        · intro har hrb
          by_cases hr' : max alpha (F n alpha beta) < abMaxLoop F beta ns
              (max maxv (F n alpha beta)) (max alpha (F n alpha beta))
          · exact IH.2.1 hr' hrb
          · have hrle : abMaxLoop F beta ns (max maxv (F n alpha beta))
                (max alpha (F n alpha beta)) ≤ max alpha (F n alpha beta) :=
              not_lt.mp hr'
            have hMr := IH.1 hrle
            have hrM : abMaxLoop F beta ns (max maxv (F n alpha beta))
                (max alpha (F n alpha beta)) ≤
                ns.foldl (fun acc m => max acc (mv m)) (max maxv (F n alpha beta)) :=
              le_trans (le_trans hrle (le_of_eq halpha'))
                (le_trans (le_max_right maxv _) (le_foldl_max mv ns _))
            exact le_antisymm hrM hMr
        · intro hbr
          exact IH.2.2 hbr

/-- The minimizing alpha-beta loop satisfies the dual Knuth-Moore
specification. -/
theorem abMinLoop_km (F : Nat → XQ → XQ → XQ) (mv : Nat → XQ) (alpha : XQ) :
    ∀ l : List Nat,
      (∀ n ∈ l, ∀ a b : XQ, a < b → KMtriple (F n a b) (mv n) a b) →
      ∀ minv beta : XQ, beta ≤ minv → alpha < beta →
        KMtriple (abMinLoop F alpha l minv beta)
          (l.foldl (fun acc n => min acc (mv n)) minv) alpha beta := by
  intro l
  induction l with
  | nil =>
    intro _ minv beta _ _
    exact ⟨fun _ => le_refl _, fun _ _ => rfl, fun _ => le_refl _⟩
  | cons n ns ih =>
    intro hF minv beta hbm hab
    rw [abMinLoop, List.foldl_cons]
    have hchild := hF n (List.mem_cons_self n ns) alpha beta hab
    by_cases hba : min beta (F n alpha beta) ≤ alpha
    · rw [if_pos hba]
      have hva : F n alpha beta ≤ alpha := by
        rcases min_le_iff.mp hba with h | h
        · exact absurd h (not_le.mpr hab)
        · exact h
      have hmv : mv n ≤ F n alpha beta := hchild.1 hva
      refine ⟨?_, ?_, ?_⟩
      · intro _
        exact le_trans (foldl_min_le mv ns (min minv (mv n)))
          (min_le_min (le_refl minv) hmv)
      · intro har _
        exact absurd (lt_of_lt_of_le har (le_trans (min_le_right minv _) hva))
          (lt_irrefl alpha)
      · intro hbr
        exact absurd (le_trans hbr (le_trans (min_le_right minv _) hva))
          (not_le.mpr hab)
    · rw [if_neg hba]
      have hab' : alpha < min beta (F n alpha beta) := not_le.mp hba
      have hinv' : min beta (F n alpha beta) ≤ min minv (F n alpha beta) :=
        min_le_min hbm (le_refl _)
      have hF' : ∀ m ∈ ns, ∀ a b : XQ, a < b → KMtriple (F m a b) (mv m) a b :=
        fun m hm => hF m (List.mem_cons_of_mem n hm)
      have IH := ih hF' (min minv (F n alpha beta)) (min beta (F n alpha beta)) hinv' hab'
      by_cases hvb : beta ≤ F n alpha beta
      · have hmv : F n alpha beta ≤ mv n := hchild.2.2 hvb
        have hbeta' : min beta (F n alpha beta) = beta := min_eq_left hvb
        rw [hbeta'] at IH ⊢
        have hM'le : ns.foldl (fun acc m => min acc (mv m)) (min minv (F n alpha beta)) ≤
            ns.foldl (fun acc m => min acc (mv m)) (min minv (mv n)) :=
          foldl_min_mono mv ns _ _ (min_le_min (le_refl _) hmv)
        have hMle : min (ns.foldl (fun acc m => min acc (mv m)) (min minv (mv n)))
            (F n alpha beta) ≤
            ns.foldl (fun acc m => min acc (mv m)) (min minv (F n alpha beta)) := by
          have h1 : min (min minv (mv n)) (F n alpha beta) ≤ min minv (F n alpha beta) :=
            min_le_min (min_le_left _ _) (le_refl _)
          exact le_trans (le_of_eq (foldl_min_min mv ns (min minv (mv n))
            (F n alpha beta)).symm) (foldl_min_mono mv ns _ _ h1)
        refine ⟨?_, ?_, ?_⟩
        · intro hra
          have hM'r := IH.1 hra
          rcases min_choice (ns.foldl (fun acc m => min acc (mv m)) (min minv (mv n)))
            (F n alpha beta) with hmn | hmn
          · rw [hmn] at hMle
            exact le_trans hMle hM'r
          · rw [hmn] at hMle
            exact absurd (le_trans hvb (le_trans hMle (le_trans hM'r hra)))
              (not_le.mpr hab)
        · intro har hrb
          have hr := IH.2.1 har hrb
          rw [hr]
          rcases min_choice (ns.foldl (fun acc m => min acc (mv m)) (min minv (mv n)))
            (F n alpha beta) with hmn | hmn
          · rw [hmn] at hMle
            exact le_antisymm hM'le hMle
          · rw [hmn] at hMle
            rw [hr] at hrb
            exact absurd (le_trans hvb hMle) (not_le.mpr hrb)
        · intro hbr
          exact le_trans (IH.2.2 hbr) hM'le
      · have hvb' : F n alpha beta < beta := not_le.mp hvb
        have hav : alpha < F n alpha beta :=
          lt_of_lt_of_le hab' (min_le_right beta _)
        have hveq : F n alpha beta = mv n := hchild.2.1 hav hvb'
        rw [← hveq]
        have hbeta' : min beta (F n alpha beta) = F n alpha beta :=
          min_eq_right (le_of_lt hvb')
        refine ⟨?_, ?_, ?_⟩
        · intro hra
          exact IH.1 hra
        · intro har hrb
          by_cases hr' : abMinLoop F alpha ns (min minv (F n alpha beta))
              (min beta (F n alpha beta)) < min beta (F n alpha beta)
          · exact IH.2.1 har hr'
          · have hrge : min beta (F n alpha beta) ≤ abMinLoop F alpha ns
                (min minv (F n alpha beta)) (min beta (F n alpha beta)) :=
              not_lt.mp hr'
            have hrM := IH.2.2 hrge
            have hMr : ns.foldl (fun acc m => min acc (mv m))
                (min minv (F n alpha beta)) ≤ abMinLoop F alpha ns
                (min minv (F n alpha beta)) (min beta (F n alpha beta)) := by
              refine le_trans ?_ (le_trans (le_of_eq hbeta'.symm) hrge)
              rw [hveq]
              exact le_trans (foldl_min_le mv ns _) (min_le_right minv _)
            exact le_antisymm hrM hMr
        · intro hbr
          have hrge : min beta (F n alpha beta) ≤ abMinLoop F alpha ns
              (min minv (F n alpha beta)) (min beta (F n alpha beta)) :=
            le_trans (min_le_left beta _) hbr
          exact IH.2.2 hrge

theorem ofQ_foldl_max (g : Nat → ℚ) (l : List Nat) :
    ∀ q : ℚ, l.foldl (fun acc m => max acc (XQ.ofQ (g m))) (XQ.ofQ q) =
      XQ.ofQ (l.foldl (fun acc m => max acc (g m)) q) := by
  induction l with
  | nil => intro q; rfl
  | cons x xs ih =>
    intro q
    rw [List.foldl_cons, List.foldl_cons, ← XQ.ofQ_max, ih]

theorem ofQ_foldl_min (g : Nat → ℚ) (l : List Nat) :
    ∀ q : ℚ, l.foldl (fun acc m => min acc (XQ.ofQ (g m))) (XQ.ofQ q) =
      XQ.ofQ (l.foldl (fun acc m => min acc (g m)) q) := by
  induction l with
  | nil => intro q; rfl
  | cons x xs ih =>
    intro q
    rw [List.foldl_cons, List.foldl_cons, ← XQ.ofQ_min, ih]

/-- With every room having at least one unlocked neighbor, the
alpha-beta recursion satisfies the Knuth-Moore specification against
the plain minimax value, for every window. -/
theorem alphaBetaAux_km (nbrs : Nat → List Nat) (ev : Nat → Nat → ℚ)
    (H : ∀ r, nbrs r ≠ []) :
    ∀ (depth gr pr : Nat) (flag : Bool) (alpha beta : XQ), alpha < beta →
      KMtriple (alphaBetaAux nbrs ev depth gr pr alpha beta flag)
        (XQ.ofQ (minimaxAux nbrs ev depth gr pr flag)) alpha beta := by
  intro depth
  induction depth with
  | zero =>
    intro gr pr flag alpha beta hab
    rw [alphaBetaAux, minimaxAux]
    exact ⟨fun _ => le_refl _, fun _ _ => rfl, fun _ => le_refl _⟩
  | succ d ih =>
    intro gr pr flag alpha beta hab
    rw [alphaBetaAux, minimaxAux]
    by_cases hgp : gr = pr
    · rw [if_pos hgp, if_pos hgp]
      exact ⟨fun _ => le_refl _, fun _ _ => rfl, fun _ => le_refl _⟩
    · rw [if_neg hgp, if_neg hgp]
      cases flag with
      | true =>
        rw [if_pos rfl, if_pos rfl]
        rcases hnn : nbrs gr with _ | ⟨n, ns⟩
        · exact absurd hnn (H gr)
        · have hloop := abMaxLoop_km
            (fun m a b => alphaBetaAux nbrs ev d m pr a b false)
            (fun m => XQ.ofQ (minimaxAux nbrs ev d m pr false)) beta (n :: ns)
            (fun m _ a b hab' => ih m pr false a b hab') ⊥ alpha bot_le hab
          have hfold : (n :: ns).foldl
              (fun acc m => max acc (XQ.ofQ (minimaxAux nbrs ev d m pr false))) ⊥ =
              XQ.ofQ (listMaxQ (minimaxAux nbrs ev d n pr false)
                (ns.map fun m => minimaxAux nbrs ev d m pr false)) := by
            rw [List.foldl_cons, max_eq_right (bot_le :
              (⊥ : XQ) ≤ XQ.ofQ (minimaxAux nbrs ev d n pr false))]
            rw [ofQ_foldl_max]
            unfold listMaxQ
            rw [List.foldl_map]
          rw [hfold] at hloop
          exact hloop
      | false =>
        rw [if_neg Bool.false_ne_true, if_neg Bool.false_ne_true]
        rcases hnn : nbrs pr with _ | ⟨n, ns⟩
        · exact absurd hnn (H pr)
        · have hloop := abMinLoop_km
            (fun m a b => alphaBetaAux nbrs ev d gr m a b true)
            (fun m => XQ.ofQ (minimaxAux nbrs ev d gr m true)) alpha (n :: ns)
            (fun m _ a b hab' => ih gr m true a b hab') XQ.pinf beta
            (XQ.le_pinf beta) hab
          have hfold : (n :: ns).foldl
              (fun acc m => min acc (XQ.ofQ (minimaxAux nbrs ev d gr m true))) XQ.pinf =
              XQ.ofQ (listMinQ (minimaxAux nbrs ev d gr n true)
                (ns.map fun m => minimaxAux nbrs ev d gr m true)) := by
            rw [List.foldl_cons, min_eq_right
              (XQ.le_pinf (XQ.ofQ (minimaxAux nbrs ev d gr n true)))]
            rw [ofQ_foldl_min]
            unfold listMinQ
            rw [List.foldl_map]
          rw [hfold] at hloop
          exact hloop

/-- Claim C2 as literally stated fails on the code: in a graph with an
isolated room the plain minimax evaluates the position in place while
the alpha-beta variant never enters its neighbor loop and returns its
float('-inf') accumulator. -/
theorem claimC2_cex :
    guardAlphaBeta isolatedNbrs 2 1 0 1 ⊥ XQ.pinf true = ⊥ ∧
      XQ.ofQ (guardMinimax isolatedNbrs 2 1 0 1 true) = XQ.ofQ (-50) ∧
      (⊥ : XQ) ≠ XQ.ofQ (-50) := by
  refine ⟨rfl, ?_, ne_of_lt (XQ.bot_lt_ofQ (-50))⟩
  rw [show guardMinimax isolatedNbrs 2 1 0 1 true = -50.0 from rfl]
  exact congrArg XQ.ofQ (by norm_num)

/-- Claim C2 (amended): provided every room has at least one unlocked
neighbor, the alpha-beta variant invoked with alpha = -infinity and
beta = +infinity returns exactly the plain depth-limited minimax value
for every guard room, player room, remaining depth, and
player-to-move flag. -/
theorem claimC2_amended (nbrs : Nat → List Nat) (numRooms : Nat)
    (H : ∀ r, nbrs r ≠ []) (depth guardRoom playerRoom : Nat) (isMaximizing : Bool) :
    guardAlphaBeta nbrs numRooms depth guardRoom playerRoom ⊥ XQ.pinf isMaximizing =
      XQ.ofQ (guardMinimax nbrs numRooms depth guardRoom playerRoom isMaximizing) := by
  obtain ⟨h1, h2, h3⟩ := alphaBetaAux_km nbrs (evaluatePosition nbrs numRooms) H depth
    guardRoom playerRoom isMaximizing ⊥ XQ.pinf XQ.bot_lt_pinf
  unfold guardAlphaBeta guardMinimax
  by_cases hbot : alphaBetaAux nbrs (evaluatePosition nbrs numRooms) depth guardRoom
      playerRoom ⊥ XQ.pinf isMaximizing ≤ ⊥
  · exact absurd (le_trans (h1 hbot) hbot)
      (not_le.mpr (XQ.bot_lt_ofQ _))
  · by_cases htop : XQ.pinf ≤ alphaBetaAux nbrs (evaluatePosition nbrs numRooms) depth
        guardRoom playerRoom ⊥ XQ.pinf isMaximizing
    · exact absurd (le_trans htop (h3 htop))
        (not_le.mpr (XQ.ofQ_lt_pinf _))
    · exact h2 (not_le.mp hbot) (not_le.mp htop)

/-- Witness for the amended C2: a two-room graph where every room has a
neighbor, with the default depth 3. -/
theorem claimC2_amended_witness :
    guardAlphaBeta pairNbrs 2 3 0 1 ⊥ XQ.pinf true =
      XQ.ofQ (guardMinimax pairNbrs 2 3 0 1 true) :=
  claimC2_amended pairNbrs 2
    (fun r => by unfold pairNbrs; split_ifs <;> simp) 3 0 1 true

/-! ## Theorems: breadth-first search (Agent.find_path_bfs) -/

theorem ValidPath.ne_nil {nbrs : Nat → List Nat} {s t : Nat} {p : List Nat}
    (hvp : ValidPath nbrs s t p) : p ≠ [] := by
  intro h
  subst h
  simp [ValidPath] at hvp

theorem ValidPath.length_pos {nbrs : Nat → List Nat} {s t : Nat} {p : List Nat}
    (hvp : ValidPath nbrs s t p) : 1 ≤ p.length :=
  List.length_pos.mpr hvp.ne_nil

theorem ValidPath.single (nbrs : Nat → List Nat) (s : Nat) : ValidPath nbrs s s [s] :=
  ⟨List.chain'_singleton s, rfl, rfl⟩

theorem ValidPath.snoc {nbrs : Nat → List Nat} {s c g : Nat} {p : List Nat}
    (hvp : ValidPath nbrs s c p) (h : g ∈ nbrs c) : ValidPath nbrs s g (p ++ [g]) := by
  have hnn := hvp.ne_nil
  obtain ⟨hch, hhd, hlast⟩ := hvp
  refine ⟨?_, ?_, List.getLast?_concat p⟩
  · rw [List.chain'_append]
    refine ⟨hch, List.chain'_singleton g, ?_⟩
    intro x hx y hy
    rw [hlast] at hx
    simp at hx hy
    subst hx
    subst hy
    exact h
  · rw [List.head?_append_of_ne_nil _ hnn, hhd]

theorem ValidPath.cons_edge {nbrs : Nat → List Nat} {x u a : Nat} {p : List Nat}
    (hvp : ValidPath nbrs x u p) (h : x ∈ nbrs a) : ValidPath nbrs a u (a :: p) := by
  obtain ⟨hch, hhd, hlast⟩ := hvp
  cases p with
  | nil => simp at hhd
  | cons b rest =>
    simp at hhd
    subst hhd
    exact ⟨List.chain'_cons.mpr ⟨h, hch⟩, rfl, by simpa using hlast⟩

/-- Any valid path from inside the visited set to outside it crosses the
boundary: it has a last visited room u followed directly by an
unvisited neighbor m. -/
theorem exit_split (nbrs : Nat → List Nat) (vis : List Nat) :
    ∀ (q : List Nat) (s t : Nat), ValidPath nbrs s t q → s ∈ vis → t ∉ vis →
      ∃ (q1 q2 : List Nat) (u m : Nat),
        q = q1 ++ u :: m :: q2 ∧ ValidPath nbrs s u (q1 ++ [u]) ∧
        u ∈ vis ∧ m ∉ vis ∧ m ∈ nbrs u := by
  intro q
  induction q with
  | nil =>
    intro s t hvp
    exact absurd rfl hvp.ne_nil
  | cons a q ih =>
    intro s t hvp hs ht
    obtain ⟨hch, hhd, hlast⟩ := hvp
    have has : a = s := by simpa using hhd
    subst has
    cases q with
    | nil =>
      have : a = t := by simpa using hlast
      subst this
      exact absurd hs ht
    | cons m q2 =>
      have hedge : m ∈ nbrs a := (List.chain'_cons.mp hch).1
      by_cases hm : m ∈ vis
      · have hvp' : ValidPath nbrs m t (m :: q2) :=
          ⟨(List.chain'_cons.mp hch).2, rfl, by simpa using hlast⟩
        rcases ih m t hvp' hm ht with ⟨q1', q2', u, m', hsplit, hvps, hu, hm', hedge'⟩
        refine ⟨a :: q1', q2', u, m', ?_, ?_, hu, hm', hedge'⟩
        · rw [List.cons_append, ← hsplit]
        · have : m ∈ nbrs a := hedge
          have hx : (q1' ++ [u]).head? = some m := hvps.2.1
          exact ValidPath.cons_edge hvps hedge
      · exact ⟨[], q2, a, m, rfl, ⟨List.chain'_singleton a, rfl, rfl⟩, hs, hm, hedge⟩

/-- Any valid path to an unvisited room is longer than the minimal
queued path: the frontier bound of breadth-first search. -/
theorem frontier_bound (nbrs : Nat → List Nat) (s goal : Nat)
    (queue : List (Nat × List Nat)) (visited : List Nat) (L : Nat)
    (hs : s ∈ visited)
    (hinv6 : ∀ v ∈ visited, (¬ ∃ pp, (v, pp) ∈ queue) → ∀ n ∈ nbrs v, n ≠ goal ∧ n ∈ visited)
    (hinv7 : ∀ e ∈ queue, ∀ q, ValidPath nbrs s e.1 q → e.2.length ≤ q.length)
    (hmin : ∀ e ∈ queue, L ≤ e.2.length) :
    ∀ t q, t ∉ visited → ValidPath nbrs s t q → L + 1 ≤ q.length := by
  intro t q ht hq
  rcases exit_split nbrs visited q s t hq hs ht with
    ⟨q1, q2, u, m, hsplit, hvps, hu, hm, hedge⟩
  by_cases he : ∃ pp, (u, pp) ∈ queue
  · rcases he with ⟨pp, hpp⟩
    have h7 := hinv7 (u, pp) hpp (q1 ++ [u]) hvps
    have hL := hmin (u, pp) hpp
    have hlen : q.length = q1.length + 2 + q2.length := by
      rw [hsplit]
      simp
      omega
    have h1 : (q1 ++ [u]).length = q1.length + 1 := by simp
    simp only [] at h7 hL
    omega
  · exact absurd (hinv6 u hu he m hedge).2 hm

/-- Spec of the neighbor loop when it finds the goal: the returned path
is the dequeued path extended by the goal, and the goal is among the
neighbors scanned. -/
theorem bfsExpand_inl (goal : Nat) (path : List Nat) :
    ∀ (ns : List Nat) (queue : List (Nat × List Nat)) (visited : List Nat)
      (out : List Nat),
      bfsExpand goal path ns queue visited = Sum.inl out →
      out = path ++ [goal] ∧ goal ∈ ns := by
  intro ns
  induction ns with
  | nil =>
    intro queue visited out h
    simp [bfsExpand] at h
  | cons n ns ih =>
    intro queue visited out h
    rw [bfsExpand] at h
    by_cases hg : n = goal
    · rw [if_pos hg] at h
      obtain rfl : path ++ [n] = out := Sum.inl.inj h
      exact ⟨by rw [hg], by rw [hg]; exact List.mem_cons_self _ _⟩
    · rw [if_neg hg] at h
      by_cases hv : n ∈ visited
      · rw [if_pos hv] at h
        rcases ih _ _ _ h with ⟨hout, hmem⟩
        exact ⟨hout, List.mem_cons_of_mem _ hmem⟩
      · rw [if_neg hv] at h
        rcases ih _ _ _ h with ⟨hout, hmem⟩
        exact ⟨hout, List.mem_cons_of_mem _ hmem⟩

/-- Spec of the neighbor loop when the goal is not found: the queue
grows by one tail entry per newly visited neighbor, the visited set
absorbs exactly the scanned neighbors, and bookkeeping (counts, no
duplicates) is preserved. -/
theorem bfsExpand_inr (goal : Nat) (path : List Nat) :
    ∀ (ns : List Nat) (queue : List (Nat × List Nat)) (visited : List Nat)
      (q' : List (Nat × List Nat)) (v' : List Nat),
      bfsExpand goal path ns queue visited = Sum.inr (q', v') →
      goal ∉ ns ∧
      (∀ x, x ∈ v' ↔ x ∈ visited ∨ x ∈ ns) ∧
      (∃ extra, q' = queue ++ extra ∧
        (∀ e ∈ extra, ∃ n, e = (n, path ++ [n]) ∧ n ∈ ns ∧ n ∈ v' ∧ n ∉ visited) ∧
        (∀ x ∈ v', x ∉ visited → ∃ pp, (x, pp) ∈ extra) ∧
        extra.length + visited.length = v'.length) ∧
      (visited.Nodup → v'.Nodup) := by
  intro ns
  induction ns with
  | nil =>
    intro queue visited q' v' h
    rw [bfsExpand] at h
    obtain ⟨h1, h2⟩ := Prod.mk.injEq .. ▸ Sum.inr.inj h
    subst h1
    subst h2
    refine ⟨by simp, fun x => by simp, ⟨[], by simp, by simp, ?_, by simp⟩, fun h => h⟩
    intro x hx hnx
    exact absurd hx hnx
  | cons n ns ih =>
    intro queue visited q' v' h
    rw [bfsExpand] at h
    by_cases hg : n = goal
    · rw [if_pos hg] at h
      simp at h
    · rw [if_neg hg] at h
      by_cases hv : n ∈ visited
      · rw [if_pos hv] at h
        obtain ⟨hg', hmem, ⟨extra, hq, hextra, hcover, hlen⟩, hnd⟩ := ih _ _ _ _ h
        refine ⟨?_, ?_, ⟨extra, hq, ?_, hcover, hlen⟩, hnd⟩
        · intro hgg
          rcases List.mem_cons.mp hgg with rfl | hgg
          · exact hg rfl
          · exact hg' hgg
        · intro x
          rw [hmem x]
          constructor
          · rintro (hx | hx)
            · exact Or.inl hx
            · exact Or.inr (List.mem_cons_of_mem _ hx)
          · rintro (hx | hx)
            · exact Or.inl hx
            · rcases List.mem_cons.mp hx with rfl | hx
              · exact Or.inl hv
              · exact Or.inr hx
        · intro e he
          rcases hextra e he with ⟨n', he', hn', hv', hnv'⟩
          exact ⟨n', he', List.mem_cons_of_mem _ hn', hv', hnv'⟩
      · rw [if_neg hv] at h
        obtain ⟨hg', hmem, ⟨extra, hq, hextra, hcover, hlen⟩, hnd⟩ := ih _ _ _ _ h
        have hnv' : n ∈ v' := (hmem n).mpr (Or.inl (List.mem_cons_self _ _))
        refine ⟨?_, ?_, ⟨(n, path ++ [n]) :: extra, ?_, ?_, ?_, ?_⟩, ?_⟩
        · intro hgg
          rcases List.mem_cons.mp hgg with rfl | hgg
          · exact hg rfl
          · exact hg' hgg
        · intro x
          rw [hmem x]
          constructor
          · rintro (hx | hx)
            · rcases List.mem_cons.mp hx with rfl | hx
              · exact Or.inr (List.mem_cons_self _ _)
              · exact Or.inl hx
            · exact Or.inr (List.mem_cons_of_mem _ hx)
          · rintro (hx | hx)
            · exact Or.inl (List.mem_cons_of_mem _ hx)
            · rcases List.mem_cons.mp hx with rfl | hx
              · exact Or.inl (List.mem_cons_self _ _)
              · exact Or.inr hx
        · rw [hq]
          simp
        · intro e he
          rcases List.mem_cons.mp he with rfl | he
          · exact ⟨n, rfl, List.mem_cons_self _ _, hnv', hv⟩
          · rcases hextra e he with ⟨n', he', hn', hv'', hnv''⟩
            refine ⟨n', he', List.mem_cons_of_mem _ hn', hv'', ?_⟩
            intro hx
            exact hnv'' (List.mem_cons_of_mem _ hx)
        · intro x hx hnx
          by_cases hxn : x = n
          · subst hxn
            exact ⟨path ++ [x], List.mem_cons_self _ _⟩
          · have : x ∉ n :: visited := by
              intro hmem'
              rcases List.mem_cons.mp hmem' with h' | h'
              · exact hxn h'
              · exact hnx h'
            rcases hcover x hx this with ⟨pp, hpp⟩
            exact ⟨pp, List.mem_cons_of_mem _ hpp⟩
        · simp only [List.length_cons] at hlen ⊢
          omega
        · intro hvnd
          exact hnd (List.nodup_cons.mpr ⟨hv, hvnd⟩)

theorem sorted_of_const (l : List Nat) (a : Nat) (h : ∀ x ∈ l, x = a) :
    l.Sorted (· ≤ ·) := by
  induction l with
  | nil => exact List.sorted_nil
  | cons x xs ih =>
    refine List.sorted_cons.mpr ⟨?_, ih fun y hy => h y (List.mem_cons_of_mem _ hy)⟩
    intro b hb
    rw [h x (List.mem_cons_self _ _), h b (List.mem_cons_of_mem _ hb)]

theorem nodup_bounded_length (l : List Nat) (N : Nat) (hnd : l.Nodup)
    (h : ∀ v ∈ l, v < N) : l.length ≤ N := by
  have hsub : l ⊆ List.range N := fun v hv => List.mem_range.mpr (h v hv)
  have hsp := List.subperm_of_subset hnd hsub
  simpa using hsp.length_le

/-- Master invariant proof for the BFS while-loop: if the queue holds
valid shortest paths to their rooms in level order, the visited set is
exact, and the fuel dominates the remaining work, then a returned path
is a valid minimal path from s to goal, and a none return means no
unlocked path exists at all. -/
theorem bfsLoop_correct (nbrs : Nat → List Nat) (s goal : Nat) (N : Nat)
    (hrange : ∀ r, r < N → ∀ n ∈ nbrs r, n < N) :
    ∀ (fuel : Nat) (queue : List (Nat × List Nat)) (visited : List Nat),
      (∀ e ∈ queue, ValidPath nbrs s e.1 e.2 ∧ e.1 ∈ visited) →
      s ∈ visited →
      goal ∉ visited →
      (queue.map fun e => e.2.length).Sorted (· ≤ ·) →
      (∀ x ∈ queue.map fun e => e.2.length, ∀ y ∈ queue.map fun e => e.2.length,
        y ≤ x + 1) →
      (∀ v ∈ visited, (¬ ∃ pp, (v, pp) ∈ queue) → ∀ n ∈ nbrs v, n ≠ goal ∧ n ∈ visited) →
      (∀ e ∈ queue, ∀ q, ValidPath nbrs s e.1 q → e.2.length ≤ q.length) →
      visited.Nodup →
      (∀ v ∈ visited, v < N) →
      queue.length + N ≤ fuel + visited.length →
      (∀ p, bfsLoop nbrs goal fuel queue visited = some p →
        ValidPath nbrs s goal p ∧ ∀ q, ValidPath nbrs s goal q → p.length ≤ q.length) ∧
      (bfsLoop nbrs goal fuel queue visited = none →
        ∀ q, ¬ ValidPath nbrs s goal q) := by
  intro fuel
  induction fuel with
  | zero =>
    intro queue visited hinv1 hs hg hsort hband hinv6 hinv7 hnd hvrange hfuel
    have hvlen : visited.length ≤ N := nodup_bounded_length visited N hnd hvrange
    have hq0 : queue = [] := by
      rcases hqq : queue with _ | ⟨e, rest⟩
      · rfl
      · exfalso
        rw [hqq] at hfuel
        simp [List.length_cons] at hfuel
        omega
    subst hq0
    constructor
    · intro p hp
      simp [bfsLoop] at hp
    · intro _ q hq
      have hfb := frontier_bound nbrs s goal [] visited q.length hs hinv6 hinv7
        (fun e he => absurd he (List.not_mem_nil e)) goal q hg hq
      omega
  | succ fuel ih =>
    intro queue visited hinv1 hs hg hsort hband hinv6 hinv7 hnd hvrange hfuel
    rcases queue with _ | ⟨⟨c, pc⟩, rest⟩
    · constructor
      · intro p hp
        simp [bfsLoop] at hp
      · intro _ q hq
        have hfb := frontier_bound nbrs s goal [] visited q.length hs hinv6 hinv7
          (fun e he => absurd he (List.not_mem_nil e)) goal q hg hq
        omega
    · have hvpc : ValidPath nbrs s c pc := (hinv1 (c, pc) (List.mem_cons_self _ _)).1
      have hcvis : c ∈ visited := (hinv1 (c, pc) (List.mem_cons_self _ _)).2
      have hsorted' : ((pc.length : Nat) :: rest.map fun e => e.2.length).Sorted (· ≤ ·) := by
        simpa using hsort
      have hmin : ∀ e ∈ ((c, pc) :: rest : List (Nat × List Nat)),
          pc.length ≤ e.2.length := by
        intro e he
        rcases List.mem_cons.mp he with rfl | he
        · exact le_refl _
        · exact (List.sorted_cons.mp hsorted').1 _ (List.mem_map_of_mem _ he)
      have hfront := frontier_bound nbrs s goal ((c, pc) :: rest) visited pc.length hs
        hinv6 hinv7 hmin
      rcases hE : bfsExpand goal pc (nbrs c) rest visited with found | qv
      · rcases bfsExpand_inl goal pc (nbrs c) rest visited found hE with ⟨rfl, hgmem⟩
        have hstep : bfsLoop nbrs goal (fuel + 1) ((c, pc) :: rest) visited =
            some (pc ++ [goal]) := by
          rw [bfsLoop, hE]
        constructor
        · intro p hp
          rw [hstep] at hp
          obtain rfl := Option.some.inj hp
          refine ⟨hvpc.snoc hgmem, ?_⟩
          intro q hq
          have := hfront goal q hg hq
          simp only [List.length_append, List.length_cons, List.length_nil]
          omega
        · intro hp
          rw [hstep] at hp
          simp at hp
      · rcases qv with ⟨q2, v2⟩
        obtain ⟨hg', hmem2, ⟨extra, hq2, hextra, hcover, hlen⟩, hndp⟩ :=
          bfsExpand_inr goal pc (nbrs c) rest visited q2 v2 hE
        have hstep : bfsLoop nbrs goal (fuel + 1) ((c, pc) :: rest) visited =
            bfsLoop nbrs goal fuel q2 v2 := by
          rw [bfsLoop, hE]
        have hinv1' : ∀ e ∈ q2, ValidPath nbrs s e.1 e.2 ∧ e.1 ∈ v2 := by
          intro e he
          rw [hq2] at he
          rcases List.mem_append.mp he with hr | hx
          · have h := hinv1 e (List.mem_cons_of_mem _ hr)
            exact ⟨h.1, (hmem2 e.1).mpr (Or.inl h.2)⟩
          · rcases hextra e hx with ⟨n, rfl, hn, hnv2, hnvis⟩
            exact ⟨hvpc.snoc hn, hnv2⟩
        have hs2 : s ∈ v2 := (hmem2 s).mpr (Or.inl hs)
        have hg2 : goal ∉ v2 := by
          intro hx
          rcases (hmem2 goal).mp hx with hx | hx
          · exact hg hx
          · exact hg' hx
        have hlens : (q2.map fun e => e.2.length) =
            (rest.map fun e => e.2.length) ++ (extra.map fun e => e.2.length) := by
          rw [hq2, List.map_append]
        have hextralen : ∀ y ∈ extra.map fun e => e.2.length, y = pc.length + 1 := by
          intro y hy
          rcases List.mem_map.mp hy with ⟨e, he, rfl⟩
          rcases hextra e he with ⟨n, rfl, -, -, -⟩
          simp
        have hheadle : ∀ y ∈ rest.map fun e => e.2.length, pc.length ≤ y :=
          (List.sorted_cons.mp hsorted').1
        have hrestband : ∀ y ∈ rest.map fun e => e.2.length, y ≤ pc.length + 1 := by
          intro y hy
          exact hband pc.length (by simp) y (by simp [hy])
        have hsort2 : (q2.map fun e => e.2.length).Sorted (· ≤ ·) := by
          rw [hlens]
          refine List.pairwise_append.mpr ⟨(List.sorted_cons.mp hsorted').2, ?_, ?_⟩
          · exact sorted_of_const _ (pc.length + 1) hextralen
          · intro x hx y hy
            rw [hextralen y hy]
            exact hrestband x hx
        have hband2 : ∀ x ∈ q2.map fun e => e.2.length,
            ∀ y ∈ q2.map fun e => e.2.length, y ≤ x + 1 := by
          intro x hx y hy
          rw [hlens] at hx hy
          rcases List.mem_append.mp hx with hx' | hx' <;>
            rcases List.mem_append.mp hy with hy' | hy'
          · exact hband x (by simp [hx']) y (by simp [hy'])
          · rw [hextralen y hy']
            exact Nat.succ_le_succ (hheadle x hx')
          · rw [hextralen x hx']
            exact le_trans (hrestband y hy') (by omega)
          · rw [hextralen x hx', hextralen y hy']
            omega
        have hinv6' : ∀ v ∈ v2, (¬ ∃ pp, (v, pp) ∈ q2) → ∀ n ∈ nbrs v,
            n ≠ goal ∧ n ∈ v2 := by
          intro v hv hno n hn
          by_cases hvc : v = c
          · subst hvc
            exact ⟨fun h => hg' (h ▸ hn), (hmem2 n).mpr (Or.inr hn)⟩
          · by_cases hvold : v ∈ visited
            · have hnoold : ¬ ∃ pp, (v, pp) ∈ ((c, pc) :: rest : List (Nat × List Nat)) := by
                rintro ⟨pp, hpp⟩
                rcases List.mem_cons.mp hpp with heq | hpp
                · exact hvc (congrArg Prod.fst heq)
                · exact hno ⟨pp, by rw [hq2]; exact List.mem_append_left _ hpp⟩
              have h6 := hinv6 v hvold hnoold n hn
              exact ⟨h6.1, (hmem2 n).mpr (Or.inl h6.2)⟩
            · rcases hcover v hv hvold with ⟨pp, hpp⟩
              exact absurd ⟨pp, by rw [hq2]; exact List.mem_append_right _ hpp⟩ hno
        have hinv7' : ∀ e ∈ q2, ∀ q, ValidPath nbrs s e.1 q → e.2.length ≤ q.length := by
          intro e he q hq
          rw [hq2] at he
          rcases List.mem_append.mp he with hr | hx
          · exact hinv7 e (List.mem_cons_of_mem _ hr) q hq
          · rcases hextra e hx with ⟨n, rfl, hn, hnv2, hnvis⟩
            have := hfront n q hnvis hq
            simp only [List.length_append, List.length_cons, List.length_nil]
            omega
        have hnd2 := hndp hnd
        have hvrange2 : ∀ v ∈ v2, v < N := by
          intro v hv
          rcases (hmem2 v).mp hv with hv | hv
          · exact hvrange v hv
          · exact hrange c (hvrange c hcvis) v hv
        have hfuel2 : q2.length + N ≤ fuel + v2.length := by
          have hq2len : q2.length = rest.length + extra.length := by
            rw [hq2]
            simp
          simp only [List.length_cons] at hfuel
          omega
        have IH := ih q2 v2 hinv1' hs2 hg2 hsort2 hband2 hinv6' hinv7' hnd2 hvrange2 hfuel2
        constructor
        · intro p hp
          rw [hstep] at hp
          exact IH.1 p hp
        · intro hp
          rw [hstep] at hp
          exact IH.2 hp

/-- Claim C1: find_path_bfs returns the single-element path when start
equals goal, returns a valid unlocked-edge path of minimal edge count
from start to goal whenever it returns a path, and returns the no-path
result None exactly when the goal is unreachable via unlocked edges. -/
theorem claimC1 (nbrs : Nat → List Nat) (N start goal : Nat)
    (hs : start < N) (hrange : ∀ r, r < N → ∀ n ∈ nbrs r, n < N) :
    (start = goal → findPathBFS nbrs N start goal = some [start]) ∧
    (∀ p, findPathBFS nbrs N start goal = some p →
      ValidPath nbrs start goal p ∧
        ∀ q, ValidPath nbrs start goal q → p.length ≤ q.length) ∧
    (findPathBFS nbrs N start goal = none → ∀ q, ¬ ValidPath nbrs start goal q) := by
  by_cases hsg : start = goal
  · subst hsg
    refine ⟨fun _ => by rw [findPathBFS, if_pos rfl], ?_, ?_⟩
    · intro p hp
      rw [findPathBFS, if_pos rfl] at hp
      obtain rfl := Option.some.inj hp
      refine ⟨ValidPath.single nbrs start, ?_⟩
      intro q hq
      simpa using hq.length_pos
    · intro hnone
      rw [findPathBFS, if_pos rfl] at hnone
      simp at hnone
  · have hinv1 : ∀ e ∈ [((start : Nat), [start])],
        ValidPath nbrs start e.1 e.2 ∧ e.1 ∈ [start] := by
      intro e he
      obtain rfl := List.mem_singleton.mp he
      exact ⟨ValidPath.single nbrs start, List.mem_singleton.mpr rfl⟩
    have hgv : goal ∉ [start] := by
      intro h
      exact hsg (List.mem_singleton.mp h).symm
    have hsort : (([((start : Nat), [start])]).map fun e => e.2.length).Sorted (· ≤ ·) := by
      simp
    have hband : ∀ x ∈ ([((start : Nat), [start])]).map fun e => e.2.length,
        ∀ y ∈ ([((start : Nat), [start])]).map fun e => e.2.length, y ≤ x + 1 := by
      intro x hx y hy
      simp at hx hy
      omega
    have hinv6 : ∀ v ∈ [start], (¬ ∃ pp, (v, pp) ∈ [((start : Nat), [start])]) →
        ∀ n ∈ nbrs v, n ≠ goal ∧ n ∈ [start] := by
      intro v hv hno
      obtain rfl := List.mem_singleton.mp hv
      exact absurd ⟨[v], List.mem_singleton.mpr rfl⟩ hno
    have hinv7 : ∀ e ∈ [((start : Nat), [start])],
        ∀ q, ValidPath nbrs start e.1 q → e.2.length ≤ q.length := by
      intro e he q hq
      obtain rfl := List.mem_singleton.mp he
      simpa using hq.length_pos
    have hmaster := bfsLoop_correct nbrs start goal N hrange (N + 1)
      [(start, [start])] [start] hinv1 (List.mem_singleton.mpr rfl) hgv hsort hband
      hinv6 hinv7 (List.nodup_singleton start) (by simpa using hs) (by simp; omega)
    refine ⟨fun h => absurd h hsg, ?_, ?_⟩
    · intro p hp
      rw [findPathBFS, if_neg hsg] at hp
      exact hmaster.1 p hp
    · intro hnone
      rw [findPathBFS, if_neg hsg] at hnone
      exact hmaster.2 hnone

/-- Witness for C1 on the three-room path graph 0 - 1 - 2. -/
theorem claimC1_witness :
    ((0 : Nat) = 2 → findPathBFS lineNbrs 3 0 2 = some [0]) ∧
    (∀ p, findPathBFS lineNbrs 3 0 2 = some p →
      ValidPath lineNbrs 0 2 p ∧
        ∀ q, ValidPath lineNbrs 0 2 q → p.length ≤ q.length) ∧
    (findPathBFS lineNbrs 3 0 2 = none → ∀ q, ¬ ValidPath lineNbrs 0 2 q) :=
  claimC1 lineNbrs 3 0 2 (by decide) (by decide)

/-! ## Theorems: A*-style search (Agent.find_path_astar) -/

theorem popMin_cons_none (e : AstarEntry) (es : List AstarEntry)
    (h : popMin es = none) : popMin (e :: es) = some (e, []) := by
  rw [popMin, h]

theorem popMin_cons_le (e : AstarEntry) (es : List AstarEntry) (m : AstarEntry)
    (rest : List AstarEntry) (h : popMin es = some (m, rest))
    (hle : entryLeb e m = true) : popMin (e :: es) = some (e, es) := by
  rw [popMin, h]
  show (if entryLeb e m = true then some (e, es) else some (m, e :: rest)) = some (e, es)
  rw [if_pos hle]

theorem popMin_cons_gt (e : AstarEntry) (es : List AstarEntry) (m : AstarEntry)
    (rest : List AstarEntry) (h : popMin es = some (m, rest))
    (hle : ¬ entryLeb e m = true) : popMin (e :: es) = some (m, e :: rest) := by
  rw [popMin, h]
  show (if entryLeb e m = true then some (e, es) else some (m, e :: rest)) =
    some (m, e :: rest)
  rw [if_neg hle]

theorem popMin_none : ∀ l : List AstarEntry, popMin l = none ↔ l = [] := by
  intro l
  cases l with
  | nil => simp [popMin]
  | cons e es =>
    constructor
    · intro h
      rcases hm : popMin es with _ | ⟨m, rest⟩
      · rw [popMin_cons_none e es hm] at h
        simp at h
      · by_cases hle : entryLeb e m = true
        · rw [popMin_cons_le e es m rest hm hle] at h
          simp at h
        · rw [popMin_cons_gt e es m rest hm hle] at h
          simp at h
    · intro h
      simp at h

theorem popMin_spec : ∀ (l : List AstarEntry) (e : AstarEntry) (rest : List AstarEntry),
    popMin l = some (e, rest) →
    ∃ l1 l2, l = l1 ++ e :: l2 ∧ rest = l1 ++ l2 := by
  intro l
  induction l with
  | nil => intro e rest h; simp [popMin] at h
  | cons x xs ih =>
    intro e rest h
    rcases hm : popMin xs with _ | ⟨m, rest'⟩
    · have hxs : xs = [] := (popMin_none xs).mp hm
      subst hxs
      rw [popMin_cons_none x [] hm] at h
      obtain ⟨h1, h2⟩ := Prod.mk.injEq .. ▸ Option.some.inj h
      subst h1
      subst h2
      exact ⟨[], [], rfl, rfl⟩
    · by_cases hle : entryLeb x m = true
      · rw [popMin_cons_le x xs m rest' hm hle] at h
        obtain ⟨h1, h2⟩ := Prod.mk.injEq .. ▸ Option.some.inj h
        subst h1
        subst h2
        exact ⟨[], xs, rfl, rfl⟩
      · rw [popMin_cons_gt x xs m rest' hm hle] at h
        obtain ⟨h1, h2⟩ := Prod.mk.injEq .. ▸ Option.some.inj h
        subst h1
        rcases ih m rest' hm with ⟨l1, l2, hsplit, hrest⟩
        refine ⟨x :: l1, l2, ?_, ?_⟩
        · rw [List.cons_append, ← hsplit]
        · rw [← h2, hrest]
          rfl

/-- Spec of the A* neighbor push loop: it appends one entry per
unvisited neighbor, each recording the extended path, and every scanned
neighbor is either visited or covered by a pushed entry. -/
theorem astarPush_spec (prob : Nat → ℚ) (goal gScore : Nat) (path : List Nat)
    (visited : List Nat) :
    ∀ (ns : List Nat) (open' : List AstarEntry),
      ∃ extra,
        astarPush prob goal gScore path visited ns open' = open' ++ extra ∧
        (∀ e ∈ extra, ∃ n, n ∈ ns ∧ n ∉ visited ∧ e = mkEntry prob goal gScore path n) ∧
        extra.length ≤ ns.length ∧
        (∀ n ∈ ns, n ∈ visited ∨ ∃ e ∈ extra, e.room = n) := by
  intro ns
  induction ns with
  | nil =>
    intro open'
    exact ⟨[], by simp [astarPush], by simp, by simp, by simp⟩
  | cons n ns ih =>
    intro open'
    rw [astarPush]
    by_cases hv : n ∈ visited
    · rw [if_pos hv]
      rcases ih open' with ⟨extra, heq, hspec, hlen, hcover⟩
      refine ⟨extra, heq, ?_, by simp; omega, ?_⟩
      · intro e he
        rcases hspec e he with ⟨n', hn', hnv', he'⟩
        exact ⟨n', List.mem_cons_of_mem _ hn', hnv', he'⟩
      · intro n' hn'
        rcases List.mem_cons.mp hn' with rfl | hn'
        · exact Or.inl hv
        · exact hcover n' hn'
    · rw [if_neg hv]
      rcases ih (open' ++ [mkEntry prob goal gScore path n]) with
        ⟨extra, heq, hspec, hlen, hcover⟩
      refine ⟨mkEntry prob goal gScore path n :: extra, ?_, ?_, ?_, ?_⟩
      · rw [heq]
        simp
      · intro e he
        rcases List.mem_cons.mp he with rfl | he
        · exact ⟨n, List.mem_cons_self _ _, hv, rfl⟩
        · rcases hspec e he with ⟨n', hn', hnv', he'⟩
          exact ⟨n', List.mem_cons_of_mem _ hn', hnv', he'⟩
      · simp only [List.length_cons]
        omega
      · intro n' hn'
        rcases List.mem_cons.mp hn' with rfl | hn'
        · exact Or.inr ⟨_, List.mem_cons_self _ _, rfl⟩
        · rcases hcover n' hn' with h | ⟨e, he, hr⟩
          · exact Or.inl h
          · exact Or.inr ⟨e, List.mem_cons_of_mem _ he, hr⟩

/-- Rooms reachable from inside a neighbor-closed visited set stay
inside it. -/
theorem closed_reach (nbrs : Nat → List Nat) (vis : List Nat)
    (hclosed : ∀ v ∈ vis, ∀ n ∈ nbrs v, n ∈ vis) :
    ∀ (p : List Nat) (s t : Nat), s ∈ vis → ValidPath nbrs s t p → t ∈ vis := by
  intro p
  induction p with
  | nil => intro s t _ hvp; exact absurd rfl hvp.ne_nil
  | cons a q ih =>
    intro s t hs hvp
    obtain ⟨hch, hhd, hlast⟩ := hvp
    have has : a = s := by simpa using hhd
    subst has
    cases q with
    | nil =>
      have : a = t := by simpa using hlast
      subst this
      exact hs
    | cons m q2 =>
      have hedge : m ∈ nbrs a := (List.chain'_cons.mp hch).1
      have hm : m ∈ vis := hclosed a hs m hedge
      exact ih m t hm ⟨(List.chain'_cons.mp hch).2, rfl, by simpa using hlast⟩

theorem le_foldr_max_nat (l : List Nat) : ∀ x ∈ l, x ≤ l.foldr max 0 := by
  induction l with
  | nil => intro x hx; simp at hx
  | cons a as ih =>
    intro x hx
    rcases List.mem_cons.mp hx with rfl | hx
    · exact le_max_left _ _
    · exact le_trans (ih x hx) (le_max_right _ _)

theorem astarLoop_succ_none (nbrs : Nat → List Nat) (prob : Nat → ℚ) (goal fuel : Nat)
    (open' : List AstarEntry) (visited : List Nat) (h : popMin open' = none) :
    astarLoop nbrs prob goal (fuel + 1) open' visited = none := by
  rw [astarLoop, h]

theorem astarLoop_succ_skip (nbrs : Nat → List Nat) (prob : Nat → ℚ) (goal fuel : Nat)
    (open' : List AstarEntry) (visited : List Nat) (e : AstarEntry) (rest : List AstarEntry)
    (h : popMin open' = some (e, rest)) (hv : e.room ∈ visited) :
    astarLoop nbrs prob goal (fuel + 1) open' visited =
      astarLoop nbrs prob goal fuel rest visited := by
  rw [astarLoop, h]
  show (if e.room ∈ visited then astarLoop nbrs prob goal fuel rest visited
    else
      if e.room = goal then some e.path
      else
        astarLoop nbrs prob goal fuel
          (astarPush prob goal e.gScore e.path (e.room :: visited) (nbrs e.room) rest)
          (e.room :: visited)) = astarLoop nbrs prob goal fuel rest visited
  rw [if_pos hv]

theorem astarLoop_succ_goal (nbrs : Nat → List Nat) (prob : Nat → ℚ) (goal fuel : Nat)
    (open' : List AstarEntry) (visited : List Nat) (e : AstarEntry) (rest : List AstarEntry)
    (h : popMin open' = some (e, rest)) (hv : e.room ∉ visited) (hg : e.room = goal) :
    astarLoop nbrs prob goal (fuel + 1) open' visited = some e.path := by
  rw [astarLoop, h]
  show (if e.room ∈ visited then astarLoop nbrs prob goal fuel rest visited
    else
      if e.room = goal then some e.path
      else
        astarLoop nbrs prob goal fuel
          (astarPush prob goal e.gScore e.path (e.room :: visited) (nbrs e.room) rest)
          (e.room :: visited)) = some e.path
  rw [if_neg hv, if_pos hg]

theorem astarLoop_succ_expand (nbrs : Nat → List Nat) (prob : Nat → ℚ) (goal fuel : Nat)
    (open' : List AstarEntry) (visited : List Nat) (e : AstarEntry) (rest : List AstarEntry)
    (h : popMin open' = some (e, rest)) (hv : e.room ∉ visited) (hg : ¬ e.room = goal) :
    astarLoop nbrs prob goal (fuel + 1) open' visited =
      astarLoop nbrs prob goal fuel
        (astarPush prob goal e.gScore e.path (e.room :: visited) (nbrs e.room) rest)
        (e.room :: visited) := by
  rw [astarLoop, h]
  show (if e.room ∈ visited then astarLoop nbrs prob goal fuel rest visited
    else
      if e.room = goal then some e.path
      else
        astarLoop nbrs prob goal fuel
          (astarPush prob goal e.gScore e.path (e.room :: visited) (nbrs e.room) rest)
          (e.room :: visited)) =
    astarLoop nbrs prob goal fuel
      (astarPush prob goal e.gScore e.path (e.room :: visited) (nbrs e.room) rest)
      (e.room :: visited)
  rw [if_neg hv, if_neg hg]

/-- Master invariant proof for the A* while-loop: if every open entry
carries a valid duplicate-free path from start to its room whose rooms
lie in the closed set (bar the entry room itself), the closed set is
duplicate-free, below the room count, neighbor-closed up to open
entries, start is covered, goal is not yet closed, and the fuel
dominates the open size, then a returned path is a valid duplicate-free
path from start to goal of at most numRooms rooms, and a none result
means no valid path exists at all. -/
theorem astarLoop_correct (nbrs : Nat → List Nat) (prob : Nat → ℚ) (start goal N D : Nat)
    (hrange : ∀ r, r < N → ∀ n ∈ nbrs r, n < N)
    (hdeg : ∀ r, r < N → (nbrs r).length ≤ D) :
    ∀ (fuel : Nat) (open' : List AstarEntry) (visited : List Nat),
      (∀ e ∈ open', ValidPath nbrs start e.room e.path ∧ e.path.Nodup ∧
        (∀ x ∈ e.path, x = e.room ∨ x ∈ visited) ∧ (∀ x ∈ e.path, x < N) ∧ e.room < N) →
      goal ∉ visited →
      (start ∈ visited ∨ ∃ e ∈ open', e.room = start) →
      (∀ v ∈ visited, ∀ n ∈ nbrs v, n ∈ visited ∨ ∃ e ∈ open', e.room = n) →
      visited.Nodup →
      (∀ v ∈ visited, v < N) →
      open'.length + N * (D + 1) ≤ fuel + visited.length * (D + 1) →
      (∀ p, astarLoop nbrs prob goal fuel open' visited = some p →
        ValidPath nbrs start goal p ∧ p.Nodup ∧ p.length ≤ N) ∧
      (astarLoop nbrs prob goal fuel open' visited = none →
        ∀ q, ¬ ValidPath nbrs start goal q) := by
  intro fuel
  induction fuel with
  | zero =>
    intro open' visited a1 a2 hsw a3 hnodup hvN hfuel
    have hvlen : visited.length ≤ N := nodup_bounded_length visited N hnodup hvN
    have hmul : visited.length * (D + 1) ≤ N * (D + 1) := Nat.mul_le_mul_right _ hvlen
    have hopen : open' = [] := List.length_eq_zero.mp (by omega)
    subst hopen
    constructor
    · intro p hp
      simp [astarLoop] at hp
    · intro _ q hq
      have hclosed : ∀ v ∈ visited, ∀ n ∈ nbrs v, n ∈ visited := by
        intro v hv n hn
        rcases a3 v hv n hn with h | ⟨e2, he2, _⟩
        · exact h
        · exact absurd he2 (List.not_mem_nil _)
      have hstart : start ∈ visited := by
        rcases hsw with h | ⟨e2, he2, _⟩
        · exact h
        · exact absurd he2 (List.not_mem_nil _)
      exact absurd (closed_reach nbrs visited hclosed q start goal hstart hq) a2
  | succ fuel ih =>
    intro open' visited a1 a2 hsw a3 hnodup hvN hfuel
    rcases hpop : popMin open' with _ | ⟨e, openRest⟩
    · have hopen := (popMin_none open').mp hpop
      subst hopen
      have heq := astarLoop_succ_none nbrs prob goal fuel [] visited hpop
      constructor
      · intro p hp
        rw [heq] at hp
        exact absurd hp (by simp)
      · intro _ q hq
        have hclosed : ∀ v ∈ visited, ∀ n ∈ nbrs v, n ∈ visited := by
          intro v hv n hn
          rcases a3 v hv n hn with h | ⟨e2, he2, _⟩
          · exact h
          · exact absurd he2 (List.not_mem_nil _)
        have hstart : start ∈ visited := by
          rcases hsw with h | ⟨e2, he2, _⟩
          · exact h
          · exact absurd he2 (List.not_mem_nil _)
        exact absurd (closed_reach nbrs visited hclosed q start goal hstart hq) a2
    · obtain ⟨l1, l2, hsplit, hrest⟩ := popMin_spec open' e openRest hpop
      have he : e ∈ open' := by
        rw [hsplit]
        exact List.mem_append.mpr (Or.inr (List.mem_cons_self _ _))
      have hsub : ∀ x ∈ openRest, x ∈ open' := by
        intro x hx
        rw [hrest] at hx
        rw [hsplit]
        rcases List.mem_append.mp hx with h | h
        · exact List.mem_append.mpr (Or.inl h)
        · exact List.mem_append.mpr (Or.inr (List.mem_cons_of_mem _ h))
      have hmem_split : ∀ x ∈ open', x = e ∨ x ∈ openRest := by
        intro x hx
        rw [hsplit] at hx
        rw [hrest]
        rcases List.mem_append.mp hx with h | h
        · exact Or.inr (List.mem_append.mpr (Or.inl h))
        · rcases List.mem_cons.mp h with h | h
          · exact Or.inl h
          · exact Or.inr (List.mem_append.mpr (Or.inr h))
      have hlen : open'.length = openRest.length + 1 := by
        rw [hsplit, hrest]
        simp [List.length_append]
        omega
      by_cases hv : e.room ∈ visited
      · have heq := astarLoop_succ_skip nbrs prob goal fuel open' visited e openRest hpop hv
        have hsw2 : start ∈ visited ∨ ∃ e2 ∈ openRest, e2.room = start := by
          rcases hsw with h | ⟨e2, he2, hr⟩
          · exact Or.inl h
          · rcases hmem_split e2 he2 with rfl | h2
            · exact Or.inl (hr ▸ hv)
            · exact Or.inr ⟨e2, h2, hr⟩
        have a3' : ∀ v ∈ visited, ∀ n ∈ nbrs v, n ∈ visited ∨ ∃ e2 ∈ openRest, e2.room = n := by
          intro v hv2 n hn
          rcases a3 v hv2 n hn with h | ⟨e2, he2, hr⟩
          · exact Or.inl h
          · rcases hmem_split e2 he2 with rfl | h2
            · exact Or.inl (hr ▸ hv)
            · exact Or.inr ⟨e2, h2, hr⟩
        have hmain := ih openRest visited (fun e2 he2 => a1 e2 (hsub e2 he2)) a2 hsw2 a3'
          hnodup hvN (by omega)
        rw [heq]
        exact hmain
      · by_cases hg : e.room = goal
        · have heq := astarLoop_succ_goal nbrs prob goal fuel open' visited e openRest hpop hv hg
          obtain ⟨hvp, hnd, _, h4, _⟩ := a1 e he
          constructor
          · intro p hp
            rw [heq] at hp
            obtain rfl := Option.some.inj hp
            exact ⟨hg ▸ hvp, hnd, nodup_bounded_length e.path N hnd h4⟩
          · intro hn
            rw [heq] at hn
            exact absurd hn (by simp)
        · have heq := astarLoop_succ_expand nbrs prob goal fuel open' visited e openRest hpop hv hg
          obtain ⟨hvp, hnd, h3, h4, h5⟩ := a1 e he
          obtain ⟨extra, hpusheq, hspec, hplen, hcover⟩ :=
            astarPush_spec prob goal e.gScore e.path (e.room :: visited) (nbrs e.room) openRest
          have hpathvis : ∀ x ∈ e.path, x ∈ e.room :: visited := by
            intro x hx
            rcases h3 x hx with rfl | h
            · exact List.mem_cons_self _ _
            · exact List.mem_cons_of_mem _ h
          have a1' : ∀ e2 ∈ openRest ++ extra, ValidPath nbrs start e2.room e2.path ∧
              e2.path.Nodup ∧ (∀ x ∈ e2.path, x = e2.room ∨ x ∈ e.room :: visited) ∧
              (∀ x ∈ e2.path, x < N) ∧ e2.room < N := by
            intro e2 he2
            rcases List.mem_append.mp he2 with h | h
            · obtain ⟨hvp2, hnd2, h32, h42, h52⟩ := a1 e2 (hsub e2 h)
              exact ⟨hvp2, hnd2,
                fun x hx => (h32 x hx).imp_right (List.mem_cons_of_mem _), h42, h52⟩
            · obtain ⟨n, hn, hnv, rfl⟩ := hspec e2 h
              have hnN : n < N := hrange e.room h5 n hn
              refine ⟨hvp.snoc hn, ?_, ?_, ?_, hnN⟩
              · show (e.path ++ [n]).Nodup
                rw [List.nodup_append]
                refine ⟨hnd, List.nodup_singleton n, ?_⟩
                intro x hx hxn
                obtain rfl := List.mem_singleton.mp hxn
                exact hnv (hpathvis x hx)
              · intro x hx
                rcases List.mem_append.mp hx with h2 | h2
                · exact Or.inr (hpathvis x h2)
                · exact Or.inl (List.mem_singleton.mp h2)
              · intro x hx
                rcases List.mem_append.mp hx with h2 | h2
                · exact h4 x h2
                · obtain rfl := List.mem_singleton.mp h2
                  exact hnN
          have a2' : goal ∉ e.room :: visited := by
            intro h
            rcases List.mem_cons.mp h with h | h
            · exact hg h.symm
            · exact a2 h
          have hsw2 : start ∈ e.room :: visited ∨ ∃ e2 ∈ openRest ++ extra, e2.room = start := by
            rcases hsw with h | ⟨e2, he2, hr⟩
            · exact Or.inl (List.mem_cons_of_mem _ h)
            · rcases hmem_split e2 he2 with rfl | h2
              · exact Or.inl (hr ▸ List.mem_cons_self _ _)
              · exact Or.inr ⟨e2, List.mem_append.mpr (Or.inl h2), hr⟩
          have a3' : ∀ v ∈ e.room :: visited, ∀ n ∈ nbrs v,
              n ∈ e.room :: visited ∨ ∃ e2 ∈ openRest ++ extra, e2.room = n := by
            intro v hv2 n hn
            rcases List.mem_cons.mp hv2 with rfl | hv2
            · rcases hcover n hn with h | ⟨x, hx, hr⟩
              · exact Or.inl h
              · exact Or.inr ⟨x, List.mem_append.mpr (Or.inr hx), hr⟩
            · rcases a3 v hv2 n hn with h | ⟨e2, he2, hr⟩
              · exact Or.inl (List.mem_cons_of_mem _ h)
              · rcases hmem_split e2 he2 with rfl | h2
                · exact Or.inl (hr ▸ List.mem_cons_self _ _)
                · exact Or.inr ⟨e2, List.mem_append.mpr (Or.inl h2), hr⟩
          have hnodup2 : (e.room :: visited).Nodup := List.nodup_cons.mpr ⟨hv, hnodup⟩
          have hvN2 : ∀ v ∈ e.room :: visited, v < N := by
            intro v hv2
            rcases List.mem_cons.mp hv2 with rfl | hv2
            · exact h5
            · exact hvN v hv2
          have hfuel2 : (openRest ++ extra).length + N * (D + 1) ≤
              fuel + (e.room :: visited).length * (D + 1) := by
            have hD : extra.length ≤ D := le_trans hplen (hdeg e.room h5)
            have hmul : (visited.length + 1) * (D + 1) = visited.length * (D + 1) + (D + 1) :=
              Nat.succ_mul _ _
            simp only [List.length_append, List.length_cons]
            omega
          have hmain := ih (openRest ++ extra) (e.room :: visited) a1' a2' hsw2 a3'
            hnodup2 hvN2 hfuel2
          rw [heq, hpusheq]
          exact hmain

/-- Claim C8: every path returned by find_path_astar is a valid
unlocked-edge path from start to goal repeating no room, so its edge
count is at most numRooms - 1; whenever any unlocked-edge path exists
the search returns a path (completeness); and a None result means no
unlocked-edge path exists. -/
theorem claimC8 (nbrs : Nat → List Nat) (prob : Nat → ℚ) (N start goal : Nat)
    (hs : start < N) (hrange : ∀ r, r < N → ∀ n ∈ nbrs r, n < N) :
    (∀ p, findPathAstar nbrs prob N start goal = some p →
      ValidPath nbrs start goal p ∧ p.Nodup ∧ p.length ≤ N) ∧
    ((∃ q, ValidPath nbrs start goal q) →
      ∃ p, findPathAstar nbrs prob N start goal = some p) ∧
    (findPathAstar nbrs prob N start goal = none → ∀ q, ¬ ValidPath nbrs start goal q) := by
  by_cases hsg : start = goal
  · subst hsg
    refine ⟨?_, ?_, ?_⟩
    · intro p hp
      rw [findPathAstar, if_pos rfl] at hp
      obtain rfl := Option.some.inj hp
      refine ⟨ValidPath.single nbrs start, List.nodup_singleton start, ?_⟩
      simp only [List.length_singleton]
      omega
    · intro _
      exact ⟨[start], by rw [findPathAstar, if_pos rfl]⟩
    · intro hnone
      rw [findPathAstar, if_pos rfl] at hnone
      simp at hnone
  · have hdeg : ∀ r, r < N →
        (nbrs r).length ≤ ((List.range N).map fun r => (nbrs r).length).foldr max 0 := by
      intro r hr
      exact le_foldr_max_nat _ _ (List.mem_map.mpr ⟨r, List.mem_range.mpr hr, rfl⟩)
    have a1 : ∀ e ∈ [startEntry prob goal start], ValidPath nbrs start e.room e.path ∧
        e.path.Nodup ∧ (∀ x ∈ e.path, x = e.room ∨ x ∈ ([] : List Nat)) ∧
        (∀ x ∈ e.path, x < N) ∧ e.room < N := by
      intro e he
      obtain rfl := List.mem_singleton.mp he
      refine ⟨ValidPath.single nbrs start, List.nodup_singleton start, ?_, ?_, hs⟩
      · intro x hx
        exact Or.inl (List.mem_singleton.mp hx)
      · intro x hx
        obtain rfl := List.mem_singleton.mp hx
        exact hs
    have hsw : start ∈ ([] : List Nat) ∨
        ∃ e ∈ [startEntry prob goal start], e.room = start :=
      Or.inr ⟨_, List.mem_singleton.mpr rfl, rfl⟩
    have a3 : ∀ v ∈ ([] : List Nat), ∀ n ∈ nbrs v, n ∈ ([] : List Nat) ∨
        ∃ e ∈ [startEntry prob goal start], e.room = n := by
      intro v hv
      exact absurd hv (List.not_mem_nil _)
    have hfuel : ([startEntry prob goal start]).length +
        N * (((List.range N).map fun r => (nbrs r).length).foldr max 0 + 1) ≤
        astarFuel nbrs N + ([] : List Nat).length *
          (((List.range N).map fun r => (nbrs r).length).foldr max 0 + 1) := by
      rw [astarFuel]
      simp
      omega
    have hmaster := astarLoop_correct nbrs prob start goal N
      (((List.range N).map fun r => (nbrs r).length).foldr max 0) hrange hdeg
      (astarFuel nbrs N) [startEntry prob goal start] [] a1 (List.not_mem_nil _) hsw a3
      List.nodup_nil (fun v hv => absurd hv (List.not_mem_nil _)) hfuel
    refine ⟨?_, ?_, ?_⟩
    · intro p hp
      rw [findPathAstar, if_neg hsg] at hp
      exact hmaster.1 p hp
    · rintro ⟨q, hq⟩
      rcases hres : findPathAstar nbrs prob N start goal with _ | p
      · rw [findPathAstar, if_neg hsg] at hres
        exact absurd hq (hmaster.2 hres q)
      · exact ⟨p, rfl⟩
    · intro hnone
      rw [findPathAstar, if_neg hsg] at hnone
      exact hmaster.2 hnone

/-- Witness for C8 on the three-room path graph 0 - 1 - 2 with an
all-zero belief function. -/
theorem claimC8_witness :
    (∀ p, findPathAstar lineNbrs (fun _ => 0) 3 0 2 = some p →
      ValidPath lineNbrs 0 2 p ∧ p.Nodup ∧ p.length ≤ 3) ∧
    ((∃ q, ValidPath lineNbrs 0 2 q) →
      ∃ p, findPathAstar lineNbrs (fun _ => 0) 3 0 2 = some p) ∧
    (findPathAstar lineNbrs (fun _ => 0) 3 0 2 = none → ∀ q, ¬ ValidPath lineNbrs 0 2 q) :=
  claimC8 lineNbrs (fun _ => 0) 3 0 2 (by decide) (by decide)

end EscapeRoom
